import Mathlib

/-!
Verification development for the checkers rules engine of
`src/src/game/board.rs` (struct `Board` and its methods).

The engine's board state is a 32-slot table of `PieceData` plus the local
player's color.  The pure logic of `Board::get_legal_moves`,
`Board::get_legal_moves_piece` (with its inner recursive `check_move`),
`Board::move_piece` and the three counting functions is embedded below.

The inner `check_move` of the Rust source is unboundedly recursive (the
capture-chain continuation search re-probes all four directions from each
landing square on an unchanged board), so it is embedded with an explicit
fuel parameter.  All embedded functions return `Option (...)` at the outer
level, where the outer `none` means "the Rust function does not return a
value at this recursion budget" (insufficient fuel, or a panic such as an
out-of-bounds index).  The inner `Option` mirrors Rust's own
`Option`-valued results (`some none` embeds Rust's `None`).

The types `PieceColor`, `PieceData`, `Move` and `Direction` are declared
in parts of the repository that are not under `src/` (the slint view-model
module); they are modelled from the spec where so marked.
-/

/-- Modelled from the spec: the two piece colors (spec §3 calls them
`{A, B}`; the concrete enum lives in the slint view-model, not in
`src/`).  `white` plays the role of color A. -/
inductive PieceColor where
  | white
  | black
deriving DecidableEq, Repr, Inhabited

/-- Modelled from the spec: `get_opposite` swaps the two colors. -/
def PieceColor.get_opposite : PieceColor → PieceColor
  | .white => .black
  | .black => .white

/-- Modelled from the spec: one slot of the 32-slot piece table
(spec §3 `Piece`): a color, a king flag, and an active flag whose
negation represents an empty square. -/
structure PieceData where
  color : PieceColor
  is_active : Bool
  is_king : Bool
deriving DecidableEq, Repr, Inhabited

/-- Modelled from the spec: `PieceData::const_default()` is the inactive
sentinel used for empty squares. -/
def PieceData.const_default : PieceData :=
  { color := .white, is_active := false, is_king := false }

/-- Modelled from the spec: a generated move (spec §3 `Move`).  `endSq`
renders the Rust field `end` (a reserved word in Lean).  `captured` is
present exactly for capture moves and lists the jumped squares. -/
structure Move where
  index : Nat
  endSq : Nat
  captured : Option (List Nat)
  promoted : Bool
deriving DecidableEq, Repr

/-- Modelled from the spec: the four diagonal directions (spec §3
`Direction`), listed in the spec's order up-left, up-right, down-left,
down-right. -/
inductive Direction where
  | upLeft
  | upRight
  | downLeft
  | downRight
deriving DecidableEq, Repr

/-- Modelled from the spec: `Direction::values()`, the four directions in
the spec's order. -/
def Direction.values : List Direction :=
  [.upLeft, .upRight, .downLeft, .downRight]

def Direction.is_left : Direction → Bool
  | .upLeft => true
  | .downLeft => true
  | _ => false

def Direction.is_right : Direction → Bool
  | .upRight => true
  | .downRight => true
  | _ => false

def Direction.is_up : Direction → Bool
  | .upLeft => true
  | .upRight => true
  | _ => false

def Direction.is_down : Direction → Bool
  | .downLeft => true
  | .downRight => true
  | _ => false

/-- Modelled from the spec: `Direction::get_value(index)` gives the signed
square-index offset of one diagonal step.  Spec §3: each row of 8
physical squares maps to 4 playable squares; the row parity
`index % 8 < 4` ("row_left_shifted") decides which of the two offsets a
direction uses.  Left-shifted rows sit on physical columns 0,2,4,6 and
the other rows on columns 1,3,5,7, which fixes the offsets to the
standard values below (consistent with the edge-exclusion checks in
`check_move`, which reject exactly the steps that would wrap a row). -/
def Direction.get_value (d : Direction) (index : Nat) : Int :=
  let row_left_shifted := index % 8 < 4
  match d with
  | .upLeft => if row_left_shifted then -5 else -4
  | .upRight => if row_left_shifted then -4 else -3
  | .downLeft => if row_left_shifted then 3 else 4
  | .downRight => if row_left_shifted then 4 else 5

/-- The board state of `Board` (board.rs, lines 8-15) restricted to the
fields the rules engine reads: the piece table and the local player's
color.  (The view-model handles `game`, `squares`, `selected_square`;
they never influence move generation or application.) -/
structure Board where
  pieces : List PieceData
  player_color : PieceColor
deriving DecidableEq, Repr

/-- `Vec::remove`-while-iterating loop of `check_move` (board.rs lines
236-240): `for i in 0..len { if v[i].captured.is_none() { v.remove(i) } }`
with `len` the length at loop entry.  An index that has run past the
shrunken vector panics in Rust; the panic is rendered as `none`. -/
def removeNoneCaptured : Nat → Nat → List Move → Option (List Move)
  | 0, _, ms => some ms
  | k + 1, i, ms =>
    match ms.get? i with
    | none => none
    | some m =>
      if m.captured.isNone then removeNoneCaptured k (i + 1) (ms.eraseIdx i)
      else removeNoneCaptured k (i + 1) ms

/-- Appending the freshly jumped square to a capture move's list
(board.rs line 272: `mov.captured.as_mut().unwrap_unchecked().push(index)`).
The Rust call is undefined behaviour when `captured` is `None`; that case
is modelled as pushing onto an empty list (theorem `check_move_shape`
shows the moves reaching this point always carry `some` captures). -/
def pushCaptured (idx : Nat) (m : Move) : Move :=
  { m with captured := some ((m.captured.getD []) ++ [idx]) }

/-- The continuation loop of `check_move` (board.rs lines 253-276): after
landing on `next`, probe every direction for further captures,
accumulating `further_moves`.  `cmn d` stands for the recursive
`check_move` call in direction `d` (at one less fuel); a fuel-exhausted
sub-call (`none`) aborts the whole loop. -/
def contLoop (cmn : Direction → Option (Option (List Move × Bool)))
    (capIdx : Nat) : List Direction → Option (List Move) →
    Option (Option (List Move)) :=
  fun ds acc =>
    match ds with
    | [] => some acc
    | d :: ds' =>
      match cmn d with
      | none => none
      | some none => contLoop cmn capIdx ds' acc
      | some (some (ms, fl)) =>
        if fl then
          contLoop cmn capIdx ds' (some ((acc.getD []) ++ ms.map (pushCaptured capIdx)))
        else contLoop cmn capIdx ds' acc

/-- The recursive `check_move` of `Board::get_legal_moves_piece`
(board.rs lines 177-323), with an explicit fuel parameter driving the
unbounded recursion.  Outer `none` = no result at this fuel (or a panic);
`some none` = Rust `None`; `some (some (moves, is_taking))` = Rust
`Some((moves, is_taking))`. -/
def check_move (fuel : Nat) (tiles : List PieceData) (start index : Nat)
    (local_player_color enemy_color : PieceColor) (is_king : Bool)
    (direction : Direction) (is_taking : Bool) :
    Option (Option (List Move × Bool)) :=
  match fuel with
  | 0 => none
  | n + 1 =>
    -- Check if the piece is on the edge of the direction
    let row_left_shifted := index % 8 < 4
    let piece_left_side := index % 4 == 0
    let peice_right_side := index % 4 == 3
    if row_left_shifted && direction.is_left && piece_left_side then some none
    else if !row_left_shifted && direction.is_right && peice_right_side then some none
    else
      let is_local_player := local_player_color ≠ enemy_color
      -- If the piece isn't a king it cant move backwards
      if !is_king && direction.is_down && is_local_player then some none
      else if !is_king && direction.is_up && !is_local_player then some none
      else
        let next : Int := (index : Int) + direction.get_value index
        let promoting : Bool :=
          (is_local_player && decide (next < 4)) ||
            (!is_local_player && decide (next > 32 - 4))
        if next < 0 ∨ next > (tiles.length : Int) then some none
        else
          match tiles.get? next.toNat with
          | none => some none
          | some next_tile =>
            if next_tile.is_active then
              -- If the next tile is an enemy check if the tile behind it
              -- is empty; if so this piece can be taken
              if next_tile.color ≠ enemy_color ∨ is_taking then some none
              else
                match check_move n tiles start next.toNat local_player_color
                    enemy_color is_king direction true with
                | none => none
                | some none => some none
                | some (some (ms, fl)) =>
                  if fl then
                    match removeNoneCaptured ms.length 0 ms with
                    | none => none
                    | some ms' => some (some (ms', fl))
                  else some (some (ms, fl))
            else if is_taking then
              -- We are taking a piece and the landing square is empty:
              -- look for continuation captures in all four directions
              match contLoop
                  (fun d => check_move n tiles start next.toNat
                    local_player_color enemy_color (is_king || promoting) d false)
                  index Direction.values none with
              | none => none
              | some further_moves =>
                some (some (further_moves.getD
                  [{ index := start, endSq := next.toNat,
                                     captured := some [index], promoted := promoting }], true))
            else
              -- Empty square, not taking: king may keep sliding
              match
                (if is_king then
                  check_move n tiles start next.toNat local_player_color
                    enemy_color is_king direction false
                else some none) with
              | none => none
              | some none =>
                some (some ([{ index := start, endSq := next.toNat,
                               captured := none, promoted := promoting }], false))
              | some (some (ms, fl)) =>
                if fl then some (some (ms, fl))
                else
                  some (some (ms ++ [{ index := start, endSq := next.toNat,
                                       captured := none, promoted := promoting }], false))

/-- The per-direction loop of `Board::get_legal_moves_piece` (board.rs
lines 325-351): or the capture flags together, and append a direction's
moves only when its flag agrees with the running flag. -/
def dirLoop (f : Direction → Option (Option (List Move × Bool))) :
    List Direction → Option (List Move) → Bool →
    Option (Option (List Move) × Bool) :=
  fun ds acc t =>
    match ds with
    | [] => some (acc, t)
    | d :: ds' =>
      match f d with
      | none => none
      | some none => dirLoop f ds' acc t
      | some (some (ms, fl)) =>
        let t' := t || fl
        if fl == t' then dirLoop f ds' (some ((acc.getD []) ++ ms)) t'
        else dirLoop f ds' acc t'

/-- `Board::get_legal_moves_piece` (board.rs lines 169-365).  The leading
`assert!(index < row_count)` is a panic, rendered as outer `none`;
an inactive piece gives Rust `None` (`some none`); otherwise the four
directions are searched and, when any direction captures, the
non-capturing moves are filtered out. -/
def get_legal_moves_piece (fuel : Nat) (b : Board) (index : Nat) :
    Option (Option (List Move × Bool)) :=
  if index < b.pieces.length then
    match b.pieces.get? index with
    | none => some none
    | some piece =>
      if !piece.is_active then some none
      else
        match dirLoop
            (fun d => check_move fuel b.pieces index index b.player_color
              piece.color.get_opposite piece.is_king d false)
            Direction.values none false with
        | none => none
        | some (none, _) => some none
        | some (some ms, t) =>
          if t then
            some (some (ms.filter (fun m => m.captured.isSome), t))
          else some (some (ms, t))
  else none

/-- The per-piece loop of `Board::get_legal_moves` (board.rs lines
369-382) over square indices: skip squares whose color is not the side to
move, then aggregate exactly like the per-direction loop.  A failed
`row_data(index)?` would make the Rust function return `None`
(`some none`). -/
def pieceLoop (b : Board) (g : Nat → Option (Option (List Move × Bool))) :
    List Nat → Option (List Move) → Bool →
    Option (Option (List Move) × Bool) :=
  fun idxs acc t =>
    match idxs with
    | [] => some (acc, t)
    | i :: idxs' =>
      match b.pieces.get? i with
      | none => some (none, t)
      | some p =>
        if p.color ≠ b.player_color then pieceLoop b g idxs' acc t
        else
          match g i with
          | none => none
          | some none => pieceLoop b g idxs' acc t
          | some (some (ms, fl)) =>
            let t' := t || fl
            if fl == t' then pieceLoop b g idxs' (some ((acc.getD []) ++ ms)) t'
            else pieceLoop b g idxs' acc t'

/-- `Board::get_legal_moves` (board.rs lines 368-393): all legal moves
for `player_color`, with the side-wide mandatory-capture filter. -/
def get_legal_moves (fuel : Nat) (b : Board) : Option (Option (List Move)) :=
  match pieceLoop b (fun i => get_legal_moves_piece fuel b i)
      (List.range b.pieces.length) none false with
  | none => none
  | some (res, t) =>
    match res with
    | none => some none
    | some ms =>
      if t then
        some (some (ms.filter (fun m => m.captured.isSome)))
      else some (some ms)

/-- Writing one row of the piece table (`set_row_data`); an out-of-range
row is a failure (`none`). -/
def setRow (l : List PieceData) (i : Nat) (x : PieceData) :
    Option (List PieceData) :=
  if i < l.length then some (l.set i x) else none

/-- The capture-clearing loop of `Board::move_piece` (board.rs lines
90-94): every captured square becomes the inactive default. -/
def clearSquares : List PieceData → List Nat → Option (List PieceData)
  | l, [] => some l
  | l, c :: cs =>
    match setRow l c PieceData.const_default with
    | none => none
    | some l' => clearSquares l' cs

/-- `Board::move_piece` (board.rs lines 80-95): read the origin square
(`unwrap` panics when out of range, rendered `none`), or the king flag
with `promoted`, write the destination, clear the origin, then clear
every captured square. -/
def move_piece (b : Board) (mov : Move) : Option Board :=
  match b.pieces.get? mov.index with
  | none => none
  | some start_data =>
    let start_data := { start_data with is_king := start_data.is_king || mov.promoted }
    match setRow b.pieces mov.endSq start_data with
    | none => none
    | some l1 =>
      match setRow l1 mov.index PieceData.const_default with
      | none => none
      | some l2 =>
        match mov.captured with
        | none => some { b with pieces := l2 }
        | some captured =>
          match clearSquares l2 captured with
          | none => none
          | some l3 => some { b with pieces := l3 }

/-- `Board::piece_is_empty` (board.rs lines 114-117): the assertion
failure is `none`. -/
def piece_is_empty (b : Board) (index : Nat) : Option Bool :=
  if index < b.pieces.length then
    (b.pieces.get? index).map (fun p => !p.is_active)
  else none

/-- `Board::piece_is_player` (board.rs lines 120-129). -/
def piece_is_player (b : Board) (index : Nat) : Option Bool :=
  if index < b.pieces.length then
    (b.pieces.get? index).map (fun p => p.color == b.player_color && p.is_active)
  else none

/-- `Board::piece_is_enemy` (board.rs lines 132-141). -/
def piece_is_enemy (b : Board) (index : Nat) : Option Bool :=
  if index < b.pieces.length then
    (b.pieces.get? index).map (fun p => p.color != b.player_color && p.is_active)
  else none

/-- Folding a per-square `Option Bool` test over squares `0..32`
(the counting loops of board.rs lines 143-165 always run over `0..32`
regardless of the table's length). -/
def countFold (test : Nat → Option Bool) : Nat → Option Nat
  | 0 => some 0
  | n + 1 =>
    match countFold test n, test n with
    | some acc, some b => some (acc + if b then 1 else 0)
    | _, _ => none

/-- `Board::get_player_piece_count` (board.rs lines 143-149). -/
def get_player_piece_count (b : Board) : Option Nat :=
  countFold (piece_is_player b) 32

/-- `Board::get_enemy_piece_count` (board.rs lines 151-157). -/
def get_enemy_piece_count (b : Board) : Option Nat :=
  countFold (piece_is_enemy b) 32

/-- `Board::get_empty_piece_count` (board.rs lines 159-165). -/
def get_empty_piece_count (b : Board) : Option Nat :=
  countFold (piece_is_empty b) 32

/-- `Board::default_setup` (board.rs lines 34-62): enemy outposts at
6, 14, 17; local pieces on squares 23-31; everything else empty. -/
def default_setup (player_color : PieceColor) : List PieceData :=
  (List.range 32).map fun i =>
    if i == 6 || i == 14 || i == 17 then
      { color := player_color.get_opposite, is_active := true, is_king := false }
    else if i < 23 then PieceData.const_default
    else { color := player_color, is_active := true, is_king := false }

/-! Proof-side predicates and helper values. -/

/-- Square `c` of the table holds an active piece of color `ec`. -/
def enemyAt (tiles : List PieceData) (ec : PieceColor) (c : Nat) : Prop :=
  ∃ p, tiles.get? c = some p ∧ p.is_active = true ∧ p.color = ec

/-- Square `c` of the table exists and is empty (inactive sentinel). -/
def emptyAt (tiles : List PieceData) (c : Nat) : Prop :=
  ∃ p, tiles.get? c = some p ∧ p.is_active = false

/-- Proof helper: the 180-degree opposite of a direction. -/
def Direction.opposite : Direction → Direction
  | .upLeft => .downRight
  | .upRight => .downLeft
  | .downLeft => .upRight
  | .downRight => .upLeft

/-- Proof helper: the edge-exclusion test of `check_move` (board.rs lines
188-197) packaged as one Boolean. -/
def edgeOk (index : Nat) (d : Direction) : Bool :=
  !(decide (index % 8 < 4) && d.is_left && (index % 4 == 0)) &&
    !(!decide (index % 8 < 4) && d.is_right && (index % 4 == 3))

/-- Proof helper: one diagonal step from `i` in direction `d` lands on
square `j`: the edge test passes and the signed offset arithmetic of
`check_move` produces `j` without going negative. -/
def StepTo (i : Nat) (d : Direction) (j : Nat) : Prop :=
  edgeOk i d = true ∧ (0 : Int) ≤ (i : Int) + d.get_value i ∧
    ((i : Int) + d.get_value i).toNat = j

/-- The promotion flag `check_move` computes for a landing square `e`
(board.rs line 212), expressed on the in-range square index. -/
def promotedFlag (is_local : Bool) (e : Nat) : Bool :=
  (is_local && decide (e < 4)) || (!is_local && decide (e > 28))

/-- All facts `check_move` guarantees for a generated move (origin,
empty destination, and a capture list exactly when the whole result is a
capture result). -/
def GoodMove (tiles : List PieceData) (start : Nat) (ec : PieceColor)
    (fl : Bool) (m : Move) : Prop :=
  m.index = start ∧ emptyAt tiles m.endSq ∧
    (fl = true → ∃ l, m.captured = some l ∧ l ≠ [] ∧
      ∀ c ∈ l, enemyAt tiles ec c) ∧
    (fl = false → m.captured = none)

/-- All facts `get_legal_moves` guarantees for a move of its result list:
the origin square holds an active piece of the side to move, the
destination is empty, and the capture list (present exactly in the
capture case) is a non-empty duplicate-free list of squares holding
active opponent pieces. -/
def TopMove (b : Board) (fl : Bool) (m : Move) : Prop :=
  (∃ p, b.pieces.get? m.index = some p ∧ p.is_active = true ∧
    p.color = b.player_color) ∧
  emptyAt b.pieces m.endSq ∧
  (fl = true → ∃ l, m.captured = some l ∧ l ≠ [] ∧ List.Nodup l ∧
    ∀ c ∈ l, enemyAt b.pieces b.player_color.get_opposite c) ∧
  (fl = false → m.captured = none)

/-! Concrete boards used by the counterexamples and witnesses. -/

/-- A board from an association list of occupied squares (player color
white, 32 squares). -/
def boardOf (l : List (Nat × PieceData)) : Board :=
  { pieces := (List.range 32).map (fun i => ((l.lookup i).getD PieceData.const_default)),
    player_color := .white }

def whiteMan : PieceData := { color := .white, is_active := true, is_king := false }
def blackMan : PieceData := { color := .black, is_active := true, is_king := false }
def whiteKing : PieceData := { color := .white, is_active := true, is_king := true }

/-- White king on square 0, black man on square 9: the king's
flying-capture search over square 9 ping-pongs between landings 4 and 13
forever. -/
def divBoard : Board := boardOf [(0, whiteKing), (9, blackMan)]

/-- A lone white man on square 0: the side to move has an active piece
but no legal move (both forward diagonals leave the board). -/
def blockBoard : Board := boardOf [(0, whiteMan)]

/-- A lone black man on square 24, free to step to square 28 in the far
row of the white player's side. -/
def promBoard : Board := boardOf [(24, blackMan)]

/-- White man on 26, black men on 21 and 13: white must double-jump
26 → 17 → 10, capturing 21 then 13. -/
def capBoard : Board := boardOf [(26, whiteMan), (21, blackMan), (13, blackMan)]

/-- The standard opening position for a white local player. -/
def startBoard : Board := { pieces := default_setup .white, player_color := .white }

/-- The per-square test counted by `get_player_piece_count`. -/
def fPlayer (pc : PieceColor) (q : PieceData) : Bool := q.color == pc && q.is_active

/-- The per-square test counted by `get_enemy_piece_count`. -/
def fEnemy (pc : PieceColor) (q : PieceData) : Bool := q.color != pc && q.is_active

/-- The terminal condition of a slide in direction `d` from square `i`:
`check_move` would answer Rust `None` there because the next square is
past the edge test, out of range, missing from the table, or occupied by
an active piece that is not of the capturable color `ec`. -/
def Blocked (tiles : List PieceData) (ec : PieceColor) (d : Direction) (i : Nat) : Prop :=
  edgeOk i d = false ∨
  ((i : Int) + d.get_value i < 0 ∨ (i : Int) + d.get_value i > (tiles.length : Int)) ∨
  tiles.get? ((i : Int) + d.get_value i).toNat = none ∨
  ∃ q, tiles.get? ((i : Int) + d.get_value i).toNat = some q ∧
    q.is_active = true ∧ q.color ≠ ec

/-- An otherwise-clear diagonal ray from square `i` in direction `d`:
`squares` lists the consecutive empty squares (nearest first), and the
step beyond the last one is blocked. -/
def KingRay (tiles : List PieceData) (ec : PieceColor) (d : Direction) :
    Nat → List Nat → Prop
  | i, [] => Blocked tiles ec d i
  | i, j :: rest => StepTo i d j ∧ emptyAt tiles j ∧ KingRay tiles ec d j rest

/-- White king on square 0 with a white blocker on square 13: the
down-right diagonal offers exactly the two empty squares 4 and 9. -/
def slideBoard : Board := boardOf [(0, whiteKing), (13, whiteMan)]

/-! Basic facts about the helper operations. -/

theorem setRow_eq_some {l : List PieceData} {i : Nat} {x : PieceData} {l' : List PieceData}
    (h : setRow l i x = some l') : i < l.length ∧ l' = l.set i x := by
  unfold setRow at h
  split at h
  · exact ⟨by assumption, (Option.some.inj h).symm⟩
  · cases h

theorem clearSquares_spec : ∀ (cs : List Nat) (l l' : List PieceData),
    clearSquares l cs = some l' →
    l'.length = l.length ∧
    (∀ j, j ∉ cs → l'.get? j = l.get? j) ∧
    (∀ j, j ∈ cs → l'.get? j = some PieceData.const_default) := by
  intro cs
  induction cs with
  | nil =>
    intro l l' h
    simp only [clearSquares] at h
    cases h
    exact ⟨rfl, fun _ _ => rfl, by simp⟩
  | cons c cs ih =>
    intro l l' h
    simp only [clearSquares] at h
    cases hs : setRow l c PieceData.const_default with
    | none => rw [hs] at h; cases h
    | some l1 =>
      rw [hs] at h
      obtain ⟨hc, hl1⟩ := setRow_eq_some hs
      subst hl1
      obtain ⟨hlen, hfr, hmem⟩ := ih _ _ h
      refine ⟨by simpa using hlen, ?_, ?_⟩
      · intro j hj
        have hj1 : j ≠ c := fun hh => hj (hh ▸ List.mem_cons_self c cs)
        have hj2 : j ∉ cs := fun hh => hj (List.mem_cons_of_mem _ hh)
        rw [hfr j hj2, List.get?_set_ne _ _ (fun hh => hj1 hh.symm)]
      · intro j hj
        by_cases hjcs : j ∈ cs
        · exact hmem j hjcs
        · have hj1 : j = c := by
            rcases List.mem_cons.mp hj with h' | h'
            · exact h'
            · exact absurd h' hjcs
          subst hj1
          rw [hfr j hjcs, List.get?_set_eq_of_lt _ hc]

theorem clearSquares_isSome : ∀ (cs : List Nat) (l : List PieceData),
    (∀ c ∈ cs, c < l.length) → ∃ l', clearSquares l cs = some l' := by
  intro cs
  induction cs with
  | nil => intro l _; exact ⟨l, rfl⟩
  | cons c cs ih =>
    intro l hlt
    have hc : c < l.length := hlt c (List.mem_cons_self c cs)
    have hset : setRow l c PieceData.const_default = some (l.set c PieceData.const_default) := by
      unfold setRow; rw [if_pos hc]
    obtain ⟨l', hl'⟩ := ih (l.set c PieceData.const_default)
      (fun d hd => by simpa using hlt d (List.mem_cons_of_mem _ hd))
    exact ⟨l', by simp only [clearSquares, hset]; exact hl'⟩

theorem move_piece_unfold {b : Board} {mov : Move} {b' : Board}
    (h : move_piece b mov = some b') :
    ∃ sd, b.pieces.get? mov.index = some sd ∧
      mov.endSq < b.pieces.length ∧ mov.index < b.pieces.length ∧
      b'.player_color = b.player_color ∧
      ∃ l2, l2 = (b.pieces.set mov.endSq
          { sd with is_king := sd.is_king || mov.promoted }).set mov.index
          PieceData.const_default ∧
        ((mov.captured = none ∧ b'.pieces = l2) ∨
          (∃ cs, mov.captured = some cs ∧ clearSquares l2 cs = some b'.pieces)) := by
  unfold move_piece at h
  cases hg : b.pieces.get? mov.index with
  | none => rw [hg] at h; cases h
  | some sd =>
    rw [hg] at h
    dsimp only at h
    cases hs1 : setRow b.pieces mov.endSq { sd with is_king := sd.is_king || mov.promoted } with
    | none => rw [hs1] at h; cases h
    | some l1 =>
      rw [hs1] at h
      dsimp only at h
      obtain ⟨he, hl1⟩ := setRow_eq_some hs1
      cases hs2 : setRow l1 mov.index PieceData.const_default with
      | none => rw [hs2] at h; cases h
      | some l2 =>
        rw [hs2] at h
        dsimp only at h
        obtain ⟨hi, hl2⟩ := setRow_eq_some hs2
        have hilen : mov.index < b.pieces.length := by
          subst hl1; simpa using hi
        refine ⟨sd, rfl, he, hilen, ?_, l2, by rw [hl2, hl1], ?_⟩
        · cases hc : mov.captured with
          | none => rw [hc] at h; cases h; rfl
          | some cs =>
            rw [hc] at h
            dsimp only at h
            cases hcl : clearSquares l2 cs with
            | none => rw [hcl] at h; cases h
            | some l3 => rw [hcl] at h; cases h; rfl
        · cases hc : mov.captured with
          | none => rw [hc] at h; cases h; exact Or.inl ⟨rfl, rfl⟩
          | some cs =>
            rw [hc] at h
            dsimp only at h
            cases hcl : clearSquares l2 cs with
            | none => rw [hcl] at h; cases h
            | some l3 =>
              rw [hcl] at h; cases h
              exact Or.inr ⟨cs, rfl, hcl⟩

/-- C9: `move_piece` touches only the origin square, the destination
square and the captured squares; every other slot of the 32-slot piece
table, and the board's `player_color`, are unchanged by move
application. -/
theorem claim9_move_piece_frame (b : Board) (mov : Move) (b' : Board)
    (h : move_piece b mov = some b') :
    b'.player_color = b.player_color ∧
    ∀ j, j ≠ mov.index → j ≠ mov.endSq →
      (∀ l, mov.captured = some l → j ∉ l) →
      b'.pieces.get? j = b.pieces.get? j := by
  obtain ⟨sd, _, _, _, hpc, l2, hl2, hrest⟩ := move_piece_unfold h
  refine ⟨hpc, ?_⟩
  intro j hji hje hjc
  have hl2j : l2.get? j = b.pieces.get? j := by
    rw [hl2, List.get?_set_ne _ _ (fun hh => hji hh.symm),
      List.get?_set_ne _ _ (fun hh => hje hh.symm)]
  rcases hrest with ⟨_, hb⟩ | ⟨cs, hcs, hcl⟩
  · rw [hb, hl2j]
  · obtain ⟨_, hfr, _⟩ := clearSquares_spec cs l2 _ hcl
    rw [hfr j (hjc cs hcs), hl2j]

/-- C9 witness: the frame theorem applied to the double capture on
`capBoard`. -/
theorem claim9_witness :
    ∃ b', move_piece capBoard
        { index := 26, endSq := 10, captured := some [13, 21], promoted := false } =
        some b' ∧
      b'.player_color = capBoard.player_color ∧
      b'.pieces.get? 5 = capBoard.pieces.get? 5 := by
  cases hmp : move_piece capBoard
      { index := 26, endSq := 10, captured := some [13, 21], promoted := false } with
  | none => exact absurd hmp (by decide)
  | some b' =>
    refine ⟨b', rfl, (claim9_move_piece_frame capBoard _ b' hmp).1,
      (claim9_move_piece_frame capBoard _ b' hmp).2 5 (by decide) (by decide) ?_⟩
    intro l hl
    cases hl
    decide

/-! Counting (claim C10). -/

theorem countFold_succ (test : Nat → Option Bool) (n : Nat) :
    countFold test (n + 1) =
      match countFold test n, test n with
      | some acc, some bb => some (acc + if bb then 1 else 0)
      | _, _ => none := rfl

theorem countFold_partition (b : Board) (h32 : b.pieces.length = 32) :
    ∀ n, n ≤ 32 → ∃ p e em, countFold (piece_is_player b) n = some p ∧
      countFold (piece_is_enemy b) n = some e ∧
      countFold (piece_is_empty b) n = some em ∧ p + e + em = n := by
  intro n
  induction n with
  | zero => intro _; exact ⟨0, 0, 0, rfl, rfl, rfl, rfl⟩
  | succ n ih =>
    intro hn
    obtain ⟨p, e, em, hp, he, hem, hsum⟩ := ih (Nat.le_of_succ_le hn)
    have hlt : n < b.pieces.length := by omega
    obtain ⟨pc, hpc⟩ : ∃ pc, b.pieces.get? n = some pc := ⟨_, List.get?_eq_get hlt⟩
    have h1 : piece_is_player b n = some (pc.color == b.player_color && pc.is_active) := by
      unfold piece_is_player; rw [if_pos hlt, hpc]; rfl
    have h2 : piece_is_enemy b n = some (pc.color != b.player_color && pc.is_active) := by
      unfold piece_is_enemy; rw [if_pos hlt, hpc]; rfl
    have h3 : piece_is_empty b n = some (!pc.is_active) := by
      unfold piece_is_empty; rw [if_pos hlt, hpc]; rfl
    have hp1 : countFold (piece_is_player b) (n + 1) =
        some (p + if (pc.color == b.player_color && pc.is_active) then 1 else 0) := by
      rw [countFold_succ, hp, h1]
    have he1 : countFold (piece_is_enemy b) (n + 1) =
        some (e + if (pc.color != b.player_color && pc.is_active) then 1 else 0) := by
      rw [countFold_succ, he, h2]
    have hem1 : countFold (piece_is_empty b) (n + 1) =
        some (em + if (!pc.is_active) then 1 else 0) := by
      rw [countFold_succ, hem, h3]
    refine ⟨_, _, _, hp1, he1, hem1, ?_⟩
    cases hc : pc.color == b.player_color <;> cases ha : pc.is_active <;>
      simp [hc, ha, bne] <;> omega

/-- C10: on a 32-row piece table the three counting functions classify
every square exactly once, so the three counts sum to 32. -/
theorem claim10_counts_partition (b : Board) (h : b.pieces.length = 32) :
    ∃ p e em, get_player_piece_count b = some p ∧
      get_enemy_piece_count b = some e ∧
      get_empty_piece_count b = some em ∧ p + e + em = 32 :=
  countFold_partition b h 32 (Nat.le_refl 32)

/-- C10 witness: the partition theorem applied to the opening position. -/
theorem claim10_witness :
    startBoard.pieces.length = 32 ∧
    ∃ p e em, get_player_piece_count startBoard = some p ∧
      get_enemy_piece_count startBoard = some e ∧
      get_empty_piece_count startBoard = some em ∧ p + e + em = 32 :=
  ⟨by decide, claim10_counts_partition startBoard (by decide)⟩

/-- C7: an enemy (non-local) man stepping onto square 28 — a square of
the far row 28..31 for that color — receives `promoted = false`, because
board.rs line 212 tests `next > 32 - 4` (squares 29..31) instead of
`next >= 32 - 4`; the claimed biconditional "promoted iff the
destination lies in the far promotion rows (28 through 31)" fails at
destination 28. -/
theorem claim7_enemy_promotion_row_28_unmarked :
    ∃ mv, get_legal_moves_piece 10 promBoard 24 = some (some ([mv], false)) ∧
      mv.endSq = 28 ∧ mv.promoted = false :=
  ⟨{ index := 24, endSq := 28, captured := none, promoted := false },
    by decide, rfl, rfl⟩

/-- C4 counterexample: on `blockBoard` the side to move still has one
active piece, yet `get_legal_moves` returns Rust `None` (`some none`),
not the empty sequence the claim requires for the loss/stalemate case. -/
theorem claim4_counterexample :
    get_legal_moves 10 blockBoard = some none ∧
    get_player_piece_count blockBoard = some 1 :=
  ⟨by decide, by decide⟩

/-! Geometry of diagonal steps. -/

theorem Direction.mem_values (d : Direction) : d ∈ Direction.values := by
  cases d <;> decide

theorem edgeOk_conds {i : Nat} {d : Direction} (h : edgeOk i d = true) :
    (decide (i % 8 < 4) && d.is_left && (i % 4 == 0)) = false ∧
    (!decide (i % 8 < 4) && d.is_right && (i % 4 == 3)) = false := by
  unfold edgeOk at h
  simp only [Bool.and_eq_true, Bool.not_eq_true'] at h
  exact h

theorem edgeOk_iff (i : Nat) (d : Direction) :
    edgeOk i d = true ↔
      (¬(i % 8 < 4 ∧ d.is_left = true ∧ i % 4 = 0) ∧
        ¬(¬ i % 8 < 4 ∧ d.is_right = true ∧ i % 4 = 3)) := by
  unfold edgeOk
  cases hl : d.is_left <;> cases hr : d.is_right <;>
    by_cases hp : i % 8 < 4 <;> simp [hp]

theorem stepTo_symm {i j : Nat} {d : Direction} (h : StepTo i d j) :
    StepTo j d.opposite i := by
  obtain ⟨he, hnn, hj⟩ := h
  rw [edgeOk_iff] at he
  cases d <;>
    · rw [StepTo, edgeOk_iff]
      simp only [Direction.opposite, Direction.get_value, Direction.is_left,
        Direction.is_right] at he hnn hj ⊢
      simp only [Bool.true_eq_false, Bool.false_eq_true, false_and, and_false,
        true_and, not_false_iff, not_and, and_true] at he ⊢
      omega

theorem stepTo_up_lt {i j : Nat} {d : Direction} (h : StepTo i d j)
    (hd : d.is_up = true) : j < i := by
  obtain ⟨_, hnn, hj⟩ := h
  cases d <;> simp only [Direction.is_up] at hd <;> try cases hd
  all_goals
    simp only [Direction.get_value] at hnn hj
    omega

theorem stepTo_down_gt {i j : Nat} {d : Direction} (h : StepTo i d j)
    (hd : d.is_down = true) : i < j := by
  obtain ⟨_, hnn, hj⟩ := h
  cases d <;> simp only [Direction.is_down] at hd <;> try cases hd
  all_goals
    simp only [Direction.get_value] at hnn hj
    omega

/-! Loop lemmas: a fuel-exhausted element aborts each of the three
aggregation loops. -/

theorem contLoop_none_of_mem {cmn : Direction → Option (Option (List Move × Bool))}
    {capIdx : Nat} : ∀ (ds : List Direction) (acc : Option (List Move)) (d : Direction),
    d ∈ ds → cmn d = none → contLoop cmn capIdx ds acc = none := by
  intro ds
  induction ds with
  | nil => intro acc d hd; cases hd
  | cons d0 ds ih =>
    intro acc d hd hnone
    rcases List.mem_cons.mp hd with h | h
    · subst h; simp only [contLoop, hnone]
    · cases h0 : cmn d0 with
      | none => simp only [contLoop, h0]
      | some x =>
        cases x with
        | none => simp only [contLoop, h0]; exact ih _ _ h hnone
        | some p =>
          rcases p with ⟨ms, fl⟩
          simp only [contLoop, h0]
          split <;> exact ih _ _ h hnone

theorem dirLoop_none_of_mem {f : Direction → Option (Option (List Move × Bool))} :
    ∀ (ds : List Direction) (acc : Option (List Move)) (t : Bool) (d : Direction),
    d ∈ ds → f d = none → dirLoop f ds acc t = none := by
  intro ds
  induction ds with
  | nil => intro acc t d hd; cases hd
  | cons d0 ds ih =>
    intro acc t d hd hnone
    rcases List.mem_cons.mp hd with h | h
    · subst h; simp only [dirLoop, hnone]
    · cases h0 : f d0 with
      | none => simp only [dirLoop, h0]
      | some x =>
        cases x with
        | none => simp only [dirLoop, h0]; exact ih _ _ _ h hnone
        | some p =>
          rcases p with ⟨ms, fl⟩
          simp only [dirLoop, h0]
          split <;> exact ih _ _ _ h hnone

theorem pieceLoop_none_of_mem {b : Board} {g : Nat → Option (Option (List Move × Bool))} :
    ∀ (idxs : List Nat) (acc : Option (List Move)) (t : Bool) (i : Nat),
    i ∈ idxs →
    (∀ j ∈ idxs, (b.pieces.get? j).isSome = true) →
    (∀ p, b.pieces.get? i = some p → p.color = b.player_color) →
    g i = none → pieceLoop b g idxs acc t = none := by
  intro idxs
  induction idxs with
  | nil => intro acc t i hd; cases hd
  | cons i0 idxs ih =>
    intro acc t i hd hsome hcol hnone
    have hs0 := hsome i0 (List.mem_cons_self i0 idxs)
    obtain ⟨p0, hp0⟩ := Option.isSome_iff_exists.mp hs0
    rcases List.mem_cons.mp hd with h | h
    · subst h
      simp only [pieceLoop, hp0]
      rw [if_neg (by simpa using (hcol p0 hp0))]
      rw [hnone]
    · simp only [pieceLoop, hp0]
      by_cases hc0 : p0.color ≠ b.player_color
      · rw [if_pos hc0]
        exact ih _ _ _ h (fun j hj => hsome j (List.mem_cons_of_mem _ hj)) hcol hnone
      · rw [if_neg hc0]
        cases h0 : g i0 with
        | none => rfl
        | some x =>
          cases x with
          | none =>
            dsimp only
            exact ih _ _ _ h (fun j hj => hsome j (List.mem_cons_of_mem _ hj)) hcol hnone
          | some p =>
            rcases p with ⟨ms, fl⟩
            dsimp only
            split <;>
              exact ih _ _ _ h (fun j hj => hsome j (List.mem_cons_of_mem _ hj)) hcol hnone

/-! Forward evaluation of one `check_move` layer in the two situations the
divergence argument needs. -/

theorem check_move_taking_empty {n : Nat} {tiles : List PieceData} {start i L : Nat}
    {lpc ec : PieceColor} {d : Direction}
    (hstep : StepTo i d L) (hL : emptyAt tiles L) :
    check_move (n + 1) tiles start i lpc ec true d true =
      match contLoop (fun d' => check_move n tiles start L lpc ec true d' false) i
          Direction.values none with
      | none => none
      | some further =>
        some (some (further.getD
          [{ index := start, endSq := L, captured := some [i],
             promoted := promotedFlag (decide (lpc ≠ ec)) L }], true)) := by
  obtain ⟨he, hnn, htn⟩ := hstep
  obtain ⟨pL, hgL, hactL⟩ := hL
  have hLlen : L < tiles.length := by
    by_contra hge
    rw [List.get?_eq_none.mpr (Nat.le_of_not_lt hge)] at hgL
    cases hgL
  have hnext : (i : Int) + d.get_value i = (L : Int) := by omega
  obtain ⟨hc1, hc2⟩ := edgeOk_conds he
  have hb : ¬((L : Int) < 0 ∨ (L : Int) > (tiles.length : Int)) := by omega
  have hp4 : decide ((L : Int) < 4) = decide (L < 4) := decide_eq_decide.mpr (by omega)
  have hp28 : decide ((L : Int) > 32 - 4) = decide (L > 28) :=
    decide_eq_decide.mpr (by omega)
  simp only [check_move, hc1, hc2, hnext, Bool.false_eq_true, if_false, Bool.not_true,
    Bool.false_and, hb, Int.toNat_natCast, hgL, hactL, if_true, Bool.true_or,
    hp4, hp28, promotedFlag]

theorem check_move_enemy_hit {n : Nat} {tiles : List PieceData} {start i E : Nat}
    {lpc ec : PieceColor} {d : Direction}
    (hstep : StepTo i d E) (hE : enemyAt tiles ec E) :
    check_move (n + 1) tiles start i lpc ec true d false =
      match check_move n tiles start E lpc ec true d true with
      | none => none
      | some none => some none
      | some (some (ms, fl)) =>
        if fl = true then
          match removeNoneCaptured ms.length 0 ms with
          | none => none
          | some ms' => some (some (ms', fl))
        else some (some (ms, fl)) := by
  obtain ⟨he, hnn, htn⟩ := hstep
  obtain ⟨pE, hgE, hactE, hcolE⟩ := hE
  have hElen : E < tiles.length := by
    by_contra hge
    rw [List.get?_eq_none.mpr (Nat.le_of_not_lt hge)] at hgE
    cases hgE
  have hnext : (i : Int) + d.get_value i = (E : Int) := by omega
  obtain ⟨hc1, hc2⟩ := edgeOk_conds he
  have hb : ¬((E : Int) < 0 ∨ (E : Int) > (tiles.length : Int)) := by omega
  have hcol : ¬(pE.color ≠ ec ∨ False) := by simp [hcolE]
  simp only [check_move, hc1, hc2, hnext, Bool.false_eq_true, if_false, Bool.not_true,
    Bool.false_and, hb, Int.toNat_natCast, hgE, hactE, if_true, hcol]

theorem Direction.opposite_opposite (d : Direction) : d.opposite.opposite = d := by
  cases d <;> rfl

/-- The heart of the non-termination: once a capture's landing square and
approach square are both empty (which holds for every capture after the
first of a chain, and for every flying-king capture) and the piece is
treated as a king, the continuation search re-captures the same enemy
piece back and forth forever.  All four states of the two-step cycle
evaluate to "no result" at every fuel. -/
theorem div_cycle (tiles : List PieceData) (start : Nat) (lpc ec : PieceColor)
    (E L A : Nat) (d : Direction)
    (hEL : StepTo E d L) (hEA : StepTo E d.opposite A)
    (hE : enemyAt tiles ec E) (hL : emptyAt tiles L) (hA : emptyAt tiles A) :
    ∀ n, check_move n tiles start E lpc ec true d true = none ∧
      check_move n tiles start L lpc ec true d.opposite false = none ∧
      check_move n tiles start E lpc ec true d.opposite true = none ∧
      check_move n tiles start A lpc ec true d false = none := by
  intro n
  induction n with
  | zero => exact ⟨rfl, rfl, rfl, rfl⟩
  | succ n ih =>
    obtain ⟨ih1, ih2, ih3, ih4⟩ := ih
    have hLE : StepTo L d.opposite E := stepTo_symm hEL
    have hAE : StepTo A d E := by
      have h := stepTo_symm hEA
      rwa [Direction.opposite_opposite] at h
    refine ⟨?_, ?_, ?_, ?_⟩
    · rw [check_move_taking_empty hEL hL,
        contLoop_none_of_mem Direction.values none d.opposite
          (Direction.mem_values _) ih2]
    · rw [check_move_enemy_hit hLE hE, ih3]
    · rw [check_move_taking_empty hEA hA,
        contLoop_none_of_mem Direction.values none d
          (Direction.mem_values _) ih4]
    · rw [check_move_enemy_hit hAE hE, ih1]

theorem check_move_succ_inv (n : Nat) (tiles : List PieceData) (start i : Nat)
    (lpc ec : PieceColor) (k : Bool) (d : Direction) (t : Bool) :
    (check_move (n + 1) tiles start i lpc ec k d t = some none) ∨
    (edgeOk i d = true ∧
      (!k && d.is_down && decide (lpc ≠ ec)) = false ∧
      (!k && d.is_up && !decide (lpc ≠ ec)) = false ∧
      ∃ (j : Nat) (pj : PieceData), StepTo i d j ∧ tiles.get? j = some pj ∧
        ((pj.is_active = true ∧ pj.color = ec ∧ t = false ∧
          check_move (n + 1) tiles start i lpc ec k d t =
            (match check_move n tiles start j lpc ec k d true with
             | none => none
             | some none => some none
             | some (some (ms, fl)) =>
               if fl = true then
                 match removeNoneCaptured ms.length 0 ms with
                 | none => none
                 | some ms' => some (some (ms', fl))
               else some (some (ms, fl)))) ∨
         (pj.is_active = false ∧ t = true ∧
          check_move (n + 1) tiles start i lpc ec k d t =
            (match contLoop (fun d' => check_move n tiles start j lpc ec
                (k || promotedFlag (decide (lpc ≠ ec)) j) d' false) i
                Direction.values none with
             | none => none
             | some further =>
               some (some (further.getD
                 [{ index := start, endSq := j, captured := some [i],
                                promoted := promotedFlag (decide (lpc ≠ ec)) j }], true)))) ∨
         (pj.is_active = false ∧ t = false ∧
          check_move (n + 1) tiles start i lpc ec k d t =
            (match (if k then check_move n tiles start j lpc ec k d false
                else some none) with
             | none => none
             | some none =>
               some (some ([{ index := start, endSq := j, captured := none,
                              promoted := promotedFlag (decide (lpc ≠ ec)) j }], false))
             | some (some (ms, fl)) =>
               if fl = true then some (some (ms, fl))
               else some (some (ms ++ [{ index := start, endSq := j,
                                         captured := none,
                                         promoted := promotedFlag (decide (lpc ≠ ec)) j }], false)))))) := by
  cases hc1 : (decide (i % 8 < 4) && d.is_left && (i % 4 == 0)) with
  | true => left; simp only [check_move, hc1, if_true]
  | false =>
  cases hc2 : (!decide (i % 8 < 4) && d.is_right && (i % 4 == 3)) with
  | true => left; simp only [check_move, hc1, hc2, Bool.false_eq_true, if_false, if_true]
  | false =>
  cases hd1 : (!k && d.is_down && decide (lpc ≠ ec)) with
  | true => left; simp only [check_move, hc1, hc2, hd1, Bool.false_eq_true, if_false, if_true]
  | false =>
  cases hd2 : (!k && d.is_up && !decide (lpc ≠ ec)) with
  | true => left; simp only [check_move, hc1, hc2, hd1, hd2, Bool.false_eq_true, if_false, if_true]
  | false =>
  have hedge : edgeOk i d = true := by
    unfold edgeOk; rw [hc1, hc2]; rfl
  by_cases hb : ((i : Int) + d.get_value i < 0 ∨
      (i : Int) + d.get_value i > (tiles.length : Int))
  · left
    simp only [check_move, hc1, hc2, hd1, hd2, Bool.false_eq_true, if_false, hb, if_true]
  · have hnn : (0 : Int) ≤ (i : Int) + d.get_value i := by omega
    set j := ((i : Int) + d.get_value i).toNat with hj
    have hnext : (i : Int) + d.get_value i = (j : Int) := by omega
    cases hget : tiles.get? j with
    | none =>
      left
      simp only [check_move, hc1, hc2, hd1, hd2, Bool.false_eq_true, if_false, hb,
        ← hj, hget]
    | some pj =>
      have hp4 : decide ((i : Int) + d.get_value i < 4) = decide (j < 4) :=
        decide_eq_decide.mpr (by omega)
      have hp28 : decide ((i : Int) + d.get_value i > 32 - 4) = decide (j > 28) :=
        decide_eq_decide.mpr (by omega)
      have hred : check_move (n + 1) tiles start i lpc ec k d t =
          (if pj.is_active = true then
            (if pj.color ≠ ec ∨ t = true then some none
             else
               match check_move n tiles start j lpc ec k d true with
               | none => none
               | some none => some none
               | some (some (ms, fl)) =>
                 if fl = true then
                   match removeNoneCaptured ms.length 0 ms with
                   | none => none
                   | some ms' => some (some (ms', fl))
                 else some (some (ms, fl)))
           else if t = true then
             match contLoop (fun d' => check_move n tiles start j lpc ec
                 (k || promotedFlag (decide (lpc ≠ ec)) j) d' false) i
                 Direction.values none with
             | none => none
             | some further =>
               some (some (further.getD
                 [{ index := start, endSq := j, captured := some [i],
                                promoted := promotedFlag (decide (lpc ≠ ec)) j }], true))
           else
             match (if k then check_move n tiles start j lpc ec k d false
                 else some none) with
             | none => none
             | some none =>
               some (some ([{ index := start, endSq := j, captured := none,
                              promoted := promotedFlag (decide (lpc ≠ ec)) j }], false))
             | some (some (ms, fl)) =>
               if fl = true then some (some (ms, fl))
               else some (some (ms ++ [{ index := start, endSq := j,
                                         captured := none,
                                         promoted := promotedFlag (decide (lpc ≠ ec)) j }], false))) := by
        simp only [check_move, hc1, hc2, hd1, hd2, Bool.false_eq_true, if_false, hb,
          ← hj, hget, hp4, hp28, promotedFlag]
      cases hact : pj.is_active with
      | true =>
        have hred2 : check_move (n + 1) tiles start i lpc ec k d t =
            (if pj.color ≠ ec ∨ t = true then some none
             else
               match check_move n tiles start j lpc ec k d true with
               | none => none
               | some none => some none
               | some (some (ms, fl)) =>
                 if fl = true then
                   match removeNoneCaptured ms.length 0 ms with
                   | none => none
                   | some ms' => some (some (ms', fl))
                 else some (some (ms, fl))) := hred.trans (if_pos hact)
        by_cases hcol : (pj.color ≠ ec ∨ t = true)
        · left
          rw [hred2, if_pos hcol]
        · push_neg at hcol
          have ht : t = false := by
            cases t
            · rfl
            · exact absurd rfl hcol.2
          right
          refine ⟨hedge, rfl, rfl, j, pj, ⟨hedge, hnn, rfl⟩, hget, ?_⟩
          exact Or.inl ⟨hact, hcol.1, ht, hred2.trans (if_neg (by push_neg; exact hcol))⟩
      | false =>
        right
        refine ⟨hedge, rfl, rfl, j, pj, ⟨hedge, hnn, rfl⟩, hget, ?_⟩
        cases t with
        | true =>
          refine Or.inr (Or.inl ⟨hact, rfl, ?_⟩)
          exact hred.trans ((if_neg (by simp [hact])).trans (if_pos rfl))
        | false =>
          refine Or.inr (Or.inr ⟨hact, rfl, ?_⟩)
          exact hred.trans ((if_neg (by simp [hact])).trans (if_neg (by simp)))

theorem check_move_slide_empty {n : Nat} {tiles : List PieceData} {start i L : Nat}
    {lpc ec : PieceColor} {d : Direction}
    (hstep : StepTo i d L) (hL : emptyAt tiles L) :
    check_move (n + 1) tiles start i lpc ec true d false =
      match check_move n tiles start L lpc ec true d false with
      | none => none
      | some none =>
        some (some ([{ index := start, endSq := L, captured := none,
                       promoted := promotedFlag (decide (lpc ≠ ec)) L }], false))
      | some (some (ms, fl)) =>
        if fl = true then some (some (ms, fl))
        else some (some (ms ++ [{ index := start, endSq := L, captured := none,
                                  promoted := promotedFlag (decide (lpc ≠ ec)) L }],
          false)) := by
  obtain ⟨he, hnn, htn⟩ := hstep
  obtain ⟨pL, hgL, hactL⟩ := hL
  have hLlen : L < tiles.length := by
    by_contra hge
    rw [List.get?_eq_none.mpr (Nat.le_of_not_lt hge)] at hgL
    cases hgL
  have hnext : (i : Int) + d.get_value i = (L : Int) := by omega
  obtain ⟨hc1, hc2⟩ := edgeOk_conds he
  have hb : ¬((L : Int) < 0 ∨ (L : Int) > (tiles.length : Int)) := by omega
  have hp4 : decide ((L : Int) < 4) = decide (L < 4) := decide_eq_decide.mpr (by omega)
  have hp28 : decide ((L : Int) > 32 - 4) = decide (L > 28) :=
    decide_eq_decide.mpr (by omega)
  simp only [check_move, hc1, hc2, hnext, Bool.false_eq_true, if_false, Bool.not_true,
    Bool.false_and, hb, Int.toNat_natCast, hgL, hactL, if_true,
    hp4, hp28, promotedFlag]

/-! The concrete divergent position of claim C2: a white king on square 0
and a black man on square 9.  The king's flying capture of square 9
(approach square 4, landing square 13) satisfies the cycle conditions of
`div_cycle`, so the whole search never returns. -/

theorem divBoard_cycle (n : Nat) :
    check_move n divBoard.pieces 0 9 .white .black true .downRight true = none ∧
    check_move n divBoard.pieces 0 13 .white .black true .upLeft false = none ∧
    check_move n divBoard.pieces 0 9 .white .black true .upLeft true = none ∧
    check_move n divBoard.pieces 0 4 .white .black true .downRight false = none := by
  have h := div_cycle divBoard.pieces 0 .white .black 9 13 4 .downRight
    (by refine ⟨by decide, by decide, by decide⟩)
    (by refine ⟨by decide, by decide, by decide⟩)
    ⟨blackMan, by decide, rfl, rfl⟩
    ⟨PieceData.const_default, by decide, rfl⟩
    ⟨PieceData.const_default, by decide, rfl⟩ n
  exact h

theorem divBoard_slide_none : ∀ n,
    check_move n divBoard.pieces 0 0 .white .black true .downRight false = none := by
  intro n
  cases n with
  | zero => rfl
  | succ n =>
    have hstep : StepTo 0 Direction.downRight 4 := ⟨by decide, by decide, by decide⟩
    rw [check_move_slide_empty hstep ⟨PieceData.const_default, by decide, rfl⟩]
    rw [(divBoard_cycle n).2.2.2]

theorem divBoard_glmp_none : ∀ fuel, get_legal_moves_piece fuel divBoard 0 = none := by
  intro fuel
  have hget : divBoard.pieces.get? 0 = some whiteKing := by decide
  unfold get_legal_moves_piece
  rw [if_pos (by decide : (0:Nat) < divBoard.pieces.length), hget]
  dsimp only
  rw [if_neg (by decide : ¬(!whiteKing.is_active) = true)]
  rw [show divBoard.player_color = PieceColor.white from rfl,
    show whiteKing.color.get_opposite = PieceColor.black from rfl,
    show whiteKing.is_king = true from rfl]
  rw [dirLoop_none_of_mem Direction.values none false .downRight
    (Direction.mem_values _) (divBoard_slide_none fuel)]

theorem divBoard_glm_none : ∀ fuel, get_legal_moves fuel divBoard = none := by
  intro fuel
  unfold get_legal_moves
  rw [pieceLoop_none_of_mem (List.range divBoard.pieces.length) none false 0
    (by decide) (by decide)
    (fun p hp => by
      have : p = whiteKing := by
        have hg : divBoard.pieces.get? 0 = some whiteKing := by decide
        rw [hg] at hp
        exact (Option.some.inj hp).symm
      rw [this]; rfl)
    (divBoard_glmp_none fuel)]

/-- C2: refuted — the capture-chain search is not well-founded.  On
`divBoard` (a lone white king on square 0 facing a black man on square 9)
the flying capture of square 9 makes the continuation search re-capture
square 9 back and forth between the empty squares 4 and 13, so
`get_legal_moves_piece` (and `get_legal_moves`) return no value at any
recursion depth: the Rust recursion never terminates. -/
theorem claim2_capture_search_diverges :
    ∃ p, divBoard.pieces.get? 0 = some p ∧ p.is_active = true ∧
      (∀ fuel, get_legal_moves_piece fuel divBoard 0 = none) ∧
      (∀ fuel, get_legal_moves fuel divBoard = none) :=
  ⟨whiteKing, by decide, rfl, divBoard_glmp_none, divBoard_glm_none⟩

/-- A capture probe over an enemy on `E`, reached from an *empty* approach
square `i` with the king flag set, never produces moves: either the
landing square is blocked (Rust `None`) or the ping-pong cycle of
`div_cycle` applies and the search diverges. -/
theorem taking_from_empty {tiles : List PieceData} {start : Nat} {lpc ec : PieceColor}
    {i E : Nat} {d : Direction}
    (hij : StepTo i d E) (hi : emptyAt tiles i) (hE : enemyAt tiles ec E) :
    ∀ n, check_move n tiles start E lpc ec true d true = none ∨
      check_move n tiles start E lpc ec true d true = some none := by
  intro n
  cases n with
  | zero => exact Or.inl rfl
  | succ n =>
    rcases check_move_succ_inv n tiles start E lpc ec true d true with
      h | ⟨he, hd1, hd2, j, pj, hstep, hget, hbr⟩
    · exact Or.inr h
    rcases hbr with ⟨hact, hcol, ht, heq⟩ | ⟨hact, ht, heq⟩ | ⟨hact, ht, heq⟩
    · exact absurd ht (by decide)
    · left
      have hdiv := div_cycle tiles start lpc ec E j i d hstep (stepTo_symm hij) hE
        ⟨pj, hget, hact⟩ hi (n + 1)
      exact hdiv.1
    · exact absurd ht (by decide)

/-- A non-capturing `check_move` call with the king flag set, issued from
an empty square (a continuation landing or a slide square), can never
return a capture result: any capture it would find goes through
`taking_from_empty` and diverges instead. -/
theorem king_no_capture {tiles : List PieceData} {start : Nat} {lpc ec : PieceColor} :
    ∀ (n : Nat) (i : Nat) (d : Direction) (ms : List Move) (fl : Bool),
      emptyAt tiles i →
      check_move n tiles start i lpc ec true d false = some (some (ms, fl)) →
      fl = false := by
  intro n
  induction n with
  | zero => intro i d ms fl _ h; cases h
  | succ n ih =>
    intro i d ms fl hi h
    rcases check_move_succ_inv n tiles start i lpc ec true d false with
      h0 | ⟨he, _, _, j, pj, hstep, hget, hbr⟩
    · exact absurd (h0.symm.trans h) (by simp)
    rcases hbr with ⟨hact, hcol, _, heq⟩ | ⟨_, ht, _⟩ | ⟨hact, _, heq⟩
    · have hT := @taking_from_empty tiles start lpc ec i j d
        hstep hi ⟨pj, hget, hact, hcol⟩ n
      rcases hT with hT | hT
      · rw [heq, hT] at h
        exact Option.noConfusion h
      · rw [heq, hT] at h
        exact Option.noConfusion (Option.some.inj h)
    · exact absurd ht (by decide)
    · rw [heq, if_pos (Eq.refl true)] at h
      cases hS : check_move n tiles start j lpc ec true d false with
      | none =>
        rw [hS] at h
        exact Option.noConfusion h
      | some x =>
        cases x with
        | none =>
          rw [hS] at h
          cases h
          rfl
        | some p =>
          rcases p with ⟨ms', fl'⟩
          have hfl' := ih j d ms' fl' ⟨pj, hget, hact⟩ hS
          subst hfl'
          rw [hS] at h
          dsimp only at h
          rw [if_neg (by decide)] at h
          cases h
          rfl

/-! The shape invariant of `check_move` results (claims C1, C4, C5). -/

theorem removeNoneCaptured_id : ∀ (r i : Nat) (ms : List Move), r + i ≤ ms.length →
    (∀ m ∈ ms, m.captured.isSome = true) → removeNoneCaptured r i ms = some ms := by
  intro r
  induction r with
  | zero => intro i ms _ _; rfl
  | succ r ih =>
    intro i ms hlen hsome
    have hil : i < ms.length := by omega
    have hget : ms.get? i = some (ms.get ⟨i, hil⟩) := List.get?_eq_get hil
    have hmem : ms.get ⟨i, hil⟩ ∈ ms := List.get_mem ms i hil
    have hcap := hsome _ hmem
    simp only [removeNoneCaptured, hget]
    rw [if_neg (by simp only [Option.isNone_eq_false_iff, ← Option.isSome_iff_ne_none,
      Bool.not_eq_true]; exact hcap)]
    exact ih (i + 1) ms (by omega) hsome

theorem contLoop_good {cmn : Direction → Option (Option (List Move × Bool))}
    {capIdx : Nat} (P : Move → Prop)
    (hsub : ∀ d' ms' fl', cmn d' = some (some (ms', fl')) → fl' = true →
      ms' ≠ [] ∧ ∀ m ∈ ms', P (pushCaptured capIdx m)) :
    ∀ (ds : List Direction) (acc : Option (List Move)) (res : Option (List Move)),
      contLoop cmn capIdx ds acc = some res →
      (∀ l0, acc = some l0 → l0 ≠ [] ∧ ∀ m ∈ l0, P m) →
      ∀ l1, res = some l1 → l1 ≠ [] ∧ ∀ m ∈ l1, P m := by
  intro ds
  induction ds with
  | nil =>
    intro acc res h hacc l1 hl1
    simp only [contLoop] at h
    cases h
    exact hacc l1 hl1
  | cons d0 ds ih =>
    intro acc res h hacc l1 hl1
    cases h0 : cmn d0 with
    | none =>
      simp only [contLoop, h0] at h
      exact Option.noConfusion h
    | some x =>
      cases x with
      | none =>
        simp only [contLoop, h0] at h
        exact ih _ _ h hacc l1 hl1
      | some p =>
        rcases p with ⟨ms0, fl0⟩
        simp only [contLoop, h0] at h
        by_cases hfl0 : fl0 = true
        · rw [if_pos hfl0] at h
          refine ih _ _ h ?_ l1 hl1
          intro l0 hl0
          cases hl0
          obtain ⟨hne, hP⟩ := hsub d0 ms0 fl0 h0 hfl0
          constructor
          · intro hemp
            rcases List.append_eq_nil.mp hemp with ⟨_, hmap⟩
            exact hne (List.map_eq_nil.mp hmap)
          · intro m hm
            rcases List.mem_append.mp hm with hm | hm
            · cases hz : acc with
              | none => rw [hz] at hm; cases hm
              | some l2 =>
                rw [hz] at hm
                exact (hacc l2 hz).2 m hm
            · rcases List.mem_map.mp hm with ⟨m0, hm0, hpm⟩
              rw [← hpm]
              exact hP m0 hm0
        · rw [if_neg hfl0] at h
          exact ih _ _ h hacc l1 hl1

theorem check_move_shape :
    ∀ (fuel : Nat) (tiles : List PieceData) (start i : Nat) (lpc ec : PieceColor)
      (k : Bool) (d : Direction) (t : Bool) (ms : List Move) (fl : Bool),
      (t = true → enemyAt tiles ec i) →
      check_move fuel tiles start i lpc ec k d t = some (some (ms, fl)) →
      ms ≠ [] ∧ (t = true → fl = true) ∧ ∀ m ∈ ms, GoodMove tiles start ec fl m := by
  intro fuel
  induction fuel with
  | zero => intro tiles start i lpc ec k d t ms fl _ h; cases h
  | succ n ih =>
    intro tiles start i lpc ec k d t ms fl hctx h
    rcases check_move_succ_inv n tiles start i lpc ec k d t with
      h0 | ⟨he, _, _, j, pj, hstep, hget, hbr⟩
    · exact absurd (h0.symm.trans h) (by simp)
    rcases hbr with ⟨hact, hcol, ht, heq⟩ | ⟨hact, ht, heq⟩ | ⟨hact, ht, heq⟩
    · -- enemy hit: the inner taking call provides the moves
      subst ht
      rw [heq] at h
      cases hT : check_move n tiles start j lpc ec k d true with
      | none => rw [hT] at h; exact Option.noConfusion h
      | some x =>
        cases x with
        | none =>
          rw [hT] at h
          exact Option.noConfusion (Option.some.inj h)
        | some p =>
          rcases p with ⟨msT, flT⟩
          obtain ⟨hTne, hTfl, hTgood⟩ :=
            ih tiles start j lpc ec k d true msT flT
              (fun _ => ⟨pj, hget, hact, hcol⟩) hT
          have hflT : flT = true := hTfl rfl
          subst hflT
          have hall : ∀ m ∈ msT, m.captured.isSome = true := by
            intro m hm
            obtain ⟨_, _, hc, _⟩ := hTgood m hm
            obtain ⟨l, hl, _, _⟩ := hc rfl
            simp [hl]
          rw [hT] at h
          dsimp only at h
          rw [if_pos rfl, removeNoneCaptured_id msT.length 0 msT (by omega) hall] at h
          cases h
          exact ⟨hTne, fun _ => rfl, hTgood⟩
    · -- taking branch: landing on the empty square j
      subst ht
      rw [heq] at h
      cases hC : contLoop (fun d' => check_move n tiles start j lpc ec
          (k || promotedFlag (decide (lpc ≠ ec)) j) d' false) i
          Direction.values none with
      | none => rw [hC] at h; exact Option.noConfusion h
      | some further =>
        rw [hC] at h
        dsimp only at h
        cases h
        have henemy : enemyAt tiles ec i := hctx rfl
        have hsingle : GoodMove tiles start ec true
            { index := start, endSq := j, captured := some [i],
              promoted := promotedFlag (decide (lpc ≠ ec)) j } := by
          refine ⟨rfl, ⟨pj, hget, hact⟩, ?_, ?_⟩
          · intro _
            exact ⟨[i], rfl, by simp, by intro c hc; rw [List.mem_singleton.mp hc]; exact henemy⟩
          · exact fun hff => Bool.noConfusion hff
        cases hf : further with
        | none =>
          refine ⟨by simp, fun _ => rfl, ?_⟩
          intro m hm
          rw [Option.getD_none] at hm
          rw [List.mem_singleton.mp hm]
          exact hsingle
        | some l =>
          have hgood := contLoop_good (GoodMove tiles start ec true)
            (by
              intro d' ms' fl' hcm hfl'
              subst hfl'
              obtain ⟨hne, _, hgood'⟩ :=
                ih tiles start j lpc ec (k || promotedFlag (decide (lpc ≠ ec)) j)
                  d' false ms' true (fun hff => Bool.noConfusion hff) hcm
              refine ⟨hne, ?_⟩
              intro m hm
              obtain ⟨hidx, hend, hcap, _⟩ := hgood' m hm
              obtain ⟨l0, hl0, hl0ne, hl0en⟩ := hcap rfl
              refine ⟨hidx, hend, ?_, fun hff => Bool.noConfusion hff⟩
              intro _
              refine ⟨l0 ++ [i], by simp [pushCaptured, hl0], by simp, ?_⟩
              intro c hc
              rcases List.mem_append.mp hc with hc | hc
              · exact hl0en c hc
              · rw [List.mem_singleton.mp hc]; exact henemy)
            Direction.values none further hC (by intro l0 hl0; cases hl0) l hf
          refine ⟨by rw [Option.getD_some]; exact hgood.1, fun _ => rfl, ?_⟩
          intro m hm
          rw [Option.getD_some] at hm
          exact hgood.2 m hm
    · -- empty square, not taking: simple move, king may slide
      subst ht
      rw [heq] at h
      cases hk : k with
      | false =>
        rw [hk] at h
        rw [if_neg (by decide)] at h
        dsimp only at h
        cases h
        refine ⟨by simp, fun hff => Bool.noConfusion hff, ?_⟩
        intro m hm
        rw [List.mem_singleton.mp hm]
        exact ⟨rfl, ⟨pj, hget, hact⟩, fun hff => Bool.noConfusion hff, fun _ => rfl⟩
      | true =>
        rw [hk] at h
        rw [if_pos rfl] at h
        cases hS : check_move n tiles start j lpc ec true d false with
        | none => rw [hS] at h; exact Option.noConfusion h
        | some x =>
          cases x with
          | none =>
            rw [hS] at h
            dsimp only at h
            cases h
            refine ⟨by simp, fun hff => Bool.noConfusion hff, ?_⟩
            intro m hm
            rw [List.mem_singleton.mp hm]
            exact ⟨rfl, ⟨pj, hget, hact⟩, fun hff => Bool.noConfusion hff, fun _ => rfl⟩
          | some p =>
            rcases p with ⟨msS, flS⟩
            obtain ⟨hSne, _, hSgood⟩ :=
              ih tiles start j lpc ec true d false msS flS (fun hff => Bool.noConfusion hff) hS
            rw [hS] at h
            dsimp only at h
            cases hflS : flS with
            | true =>
              rw [hflS] at h hSgood
              rw [if_pos rfl] at h
              cases h
              exact ⟨hSne, fun hff => Bool.noConfusion hff, hSgood⟩
            | false =>
              rw [hflS] at h hSgood
              rw [if_neg (by decide)] at h
              cases h
              refine ⟨by simp, fun hff => Bool.noConfusion hff, ?_⟩
              intro m hm
              rcases List.mem_append.mp hm with hm | hm
              · exact hSgood m hm
              · rw [List.mem_singleton.mp hm]
                exact ⟨rfl, ⟨pj, hget, hact⟩, fun hff => Bool.noConfusion hff, fun _ => rfl⟩

theorem dirLoop_inv {f : Direction → Option (Option (List Move × Bool))}
    (A : Bool → Move → Prop)
    (hf : ∀ d ms fl, f d = some (some (ms, fl)) → ms ≠ [] ∧ ∀ m ∈ ms, A fl m) :
    ∀ (ds : List Direction) (acc : Option (List Move)) (t : Bool)
      (accR : Option (List Move)) (tR : Bool),
      dirLoop f ds acc t = some (accR, tR) →
      (∀ l, acc = some l → l ≠ [] ∧ ∀ m ∈ l, A true m ∨ A false m) →
      (t = false → ∀ l, acc = some l → ∀ m ∈ l, A false m) →
      (t = true → ∀ l, acc = some l → ∃ m ∈ l, A true m) →
      ((∀ l, accR = some l → l ≠ [] ∧ ∀ m ∈ l, A true m ∨ A false m) ∧
        (tR = false → ∀ l, accR = some l → ∀ m ∈ l, A false m) ∧
        (tR = true → ∀ l, accR = some l → ∃ m ∈ l, A true m)) := by
  intro ds
  induction ds with
  | nil =>
    intro acc t accR tR h h1 h2 h3
    simp only [dirLoop] at h
    cases h
    exact ⟨h1, h2, h3⟩
  | cons d0 ds ih =>
    intro acc t accR tR h h1 h2 h3
    cases h0 : f d0 with
    | none =>
      simp only [dirLoop, h0] at h
      exact Option.noConfusion h
    | some x =>
      cases x with
      | none =>
        simp only [dirLoop, h0] at h
        exact ih _ _ _ _ h h1 h2 h3
      | some p =>
        rcases p with ⟨ms0, fl0⟩
        obtain ⟨hne0, hA0⟩ := hf d0 ms0 fl0 h0
        simp only [dirLoop, h0] at h
        cases hfl0 : fl0 with
        | true =>
          rw [hfl0] at h hA0
          rw [if_pos (by simp)] at h
          refine ih _ _ _ _ h ?_ ?_ ?_
          · intro l hl
            cases hl
            constructor
            · simp [hne0]
            · intro m hm
              rcases List.mem_append.mp hm with hm | hm
              · cases hz : acc with
                | none => rw [hz] at hm; cases hm
                | some l2 => rw [hz] at hm; exact (h1 l2 hz).2 m hm
              · exact Or.inl (hA0 m hm)
          · intro hcon; simp at hcon
          · intro _ l hl
            cases hl
            obtain ⟨m0, hm0⟩ := List.exists_mem_of_ne_nil ms0 hne0
            exact ⟨m0, List.mem_append.mpr (Or.inr hm0), hA0 m0 hm0⟩
        | false =>
          rw [hfl0] at h hA0
          cases ht : t with
          | false =>
            rw [ht] at h h2 h3
            rw [if_pos (by simp)] at h
            simp only [Bool.or_false] at h
            refine ih _ _ _ _ h ?_ ?_ ?_
            · intro l hl
              cases hl
              constructor
              · simp [hne0]
              · intro m hm
                rcases List.mem_append.mp hm with hm | hm
                · cases hz : acc with
                  | none => rw [hz] at hm; cases hm
                  | some l2 => rw [hz] at hm; exact (h1 l2 hz).2 m hm
                · exact Or.inr (hA0 m hm)
            · intro _ l hl
              cases hl
              intro m hm
              rcases List.mem_append.mp hm with hm | hm
              · cases hz : acc with
                | none => rw [hz] at hm; cases hm
                | some l2 => rw [hz] at hm; exact h2 rfl l2 hz m hm
              · exact hA0 m hm
            · intro hcon; cases hcon
          | true =>
            rw [ht] at h h2 h3
            rw [if_neg (by simp)] at h
            refine ih _ _ _ _ h h1 ?_ ?_
            · intro hcon; cases hcon
            · intro _; exact h3 rfl

theorem get_legal_moves_piece_shape :
    ∀ (fuel : Nat) (b : Board) (index : Nat) (ms : List Move) (fl : Bool),
      get_legal_moves_piece fuel b index = some (some (ms, fl)) →
      ∃ piece, b.pieces.get? index = some piece ∧ piece.is_active = true ∧
        ms ≠ [] ∧ ∀ m ∈ ms, GoodMove b.pieces index piece.color.get_opposite fl m := by
  intro fuel b index ms fl h
  unfold get_legal_moves_piece at h
  by_cases hlen : index < b.pieces.length
  · rw [if_pos hlen] at h
    split at h
    · exact Option.noConfusion (Option.some.inj h)
    rename_i piece hget
    split at h
    · exact Option.noConfusion (Option.some.inj h)
    rename_i hactb
    have hact : piece.is_active = true := by
      cases hiz : piece.is_active
      · exact absurd (by rw [hiz]; rfl) hactb
      · rfl
    refine ⟨piece, hget, hact, ?_⟩
    cases hdl : dirLoop (fun d => check_move fuel b.pieces index index b.player_color
        piece.color.get_opposite piece.is_king d false) Direction.values none false with
    | none => rw [hdl] at h; exact Option.noConfusion h
    | some pr =>
      rcases pr with ⟨accR, tR⟩
      obtain ⟨c1, c2, c3⟩ := dirLoop_inv
        (fun fl' m => GoodMove b.pieces index piece.color.get_opposite fl' m)
        (by
          intro d ms' fl' hcm
          obtain ⟨hne, _, hgood⟩ := check_move_shape fuel b.pieces index index
            b.player_color piece.color.get_opposite piece.is_king d false ms' fl'
            (fun hff => Bool.noConfusion hff) hcm
          exact ⟨hne, hgood⟩)
        Direction.values none false accR tR hdl
        (by intro l hl; cases hl)
        (by intro _ l hl; cases hl)
        (by intro _ l hl; cases hl)
      cases accR with
      | none =>
        rw [hdl] at h
        exact Option.noConfusion (Option.some.inj h)
      | some msR =>
        cases htR : tR with
        | false =>
          rw [htR] at hdl c2
          rw [hdl] at h
          have h' : some (some (msR, false)) = some (some (ms, fl)) := h
          cases h'
          refine ⟨(c1 ms rfl).1, ?_⟩
          intro m hm
          exact c2 rfl ms rfl m hm
        | true =>
          rw [htR] at hdl c3
          rw [hdl] at h
          have h' : some (some (msR.filter (fun m => m.captured.isSome), true)) =
              some (some (ms, fl)) := h
          cases h'
          obtain ⟨m0, hm0, hA0⟩ := c3 rfl msR rfl
          obtain ⟨_, _, hcap0, _⟩ := hA0
          obtain ⟨l0, hl0, _, _⟩ := hcap0 rfl
          constructor
          · exact List.ne_nil_of_mem (List.mem_filter.mpr ⟨hm0, by simp [hl0]⟩)
          · intro m hm
            rw [List.mem_filter] at hm
            rcases (c1 msR rfl).2 m hm.1 with hA | hA
            · exact hA
            · obtain ⟨_, _, _, hnone⟩ := hA
              rw [hnone rfl] at hm
              exact absurd hm.2 (by decide)
  · rw [if_neg hlen] at h
    exact Option.noConfusion h

/-! Capture lists are duplicate-free (claims C3, C6). -/

theorem removeNoneCaptured_subset : ∀ (r i : Nat) (ms ms' : List Move),
    removeNoneCaptured r i ms = some ms' → ∀ m ∈ ms', m ∈ ms := by
  intro r
  induction r with
  | zero =>
    intro i ms ms' h m hm
    simp only [removeNoneCaptured] at h
    cases h
    exact hm
  | succ r ih =>
    intro i ms ms' h m hm
    simp only [removeNoneCaptured] at h
    cases hget : ms.get? i with
    | none => rw [hget] at h; exact Option.noConfusion h
    | some m0 =>
      rw [hget] at h
      dsimp only at h
      split at h
      · exact List.eraseIdx_subset ms i (ih _ _ _ h m hm)
      · exact ih _ _ _ h m hm

theorem contLoop_mem {cmn : Direction → Option (Option (List Move × Bool))}
    {capIdx : Nat} : ∀ (ds : List Direction) (acc res : Option (List Move)),
    contLoop cmn capIdx ds acc = some res →
    ∀ l1, res = some l1 → ∀ m ∈ l1,
      (∃ l0, acc = some l0 ∧ m ∈ l0) ∨
      (∃ d' ms0 fl0 m0, cmn d' = some (some (ms0, fl0)) ∧ fl0 = true ∧ m0 ∈ ms0 ∧
        m = pushCaptured capIdx m0) := by
  intro ds
  induction ds with
  | nil =>
    intro acc res h l1 hl1 m hm
    simp only [contLoop] at h
    cases h
    exact Or.inl ⟨l1, hl1, hm⟩
  | cons d0 ds ih =>
    intro acc res h l1 hl1 m hm
    cases h0 : cmn d0 with
    | none =>
      simp only [contLoop, h0] at h
      exact Option.noConfusion h
    | some x =>
      cases x with
      | none =>
        simp only [contLoop, h0] at h
        exact ih _ _ h l1 hl1 m hm
      | some p =>
        rcases p with ⟨ms0, fl0⟩
        simp only [contLoop, h0] at h
        by_cases hfl0 : fl0 = true
        · rw [if_pos hfl0] at h
          rcases ih _ _ h l1 hl1 m hm with ⟨l0, hl0, hml0⟩ | hr
          · cases hl0
            rcases List.mem_append.mp hml0 with hm2 | hm2
            · cases hz : acc with
              | none => rw [hz] at hm2; cases hm2
              | some l2 =>
                rw [hz] at hm2
                exact Or.inl ⟨l2, rfl, hm2⟩
            · rcases List.mem_map.mp hm2 with ⟨m0, hm0, hpm⟩
              exact Or.inr ⟨d0, ms0, fl0, m0, h0, hfl0, hm0, hpm.symm⟩
          · exact Or.inr hr
        · rw [if_neg hfl0] at h
          exact ih _ _ h l1 hl1 m hm

theorem Direction.is_up_eq_not_is_down (d : Direction) : d.is_up = !d.is_down := by
  cases d <;> rfl

theorem check_move_caps :
    ∀ (fuel : Nat) (tiles : List PieceData) (start i : Nat) (lpc ec : PieceColor)
      (k : Bool) (d : Direction) (t : Bool) (ms : List Move) (fl : Bool),
      check_move fuel tiles start i lpc ec k d t = some (some (ms, fl)) →
      ∀ m ∈ ms, ∀ l, m.captured = some l →
        l.Nodup ∧
        (k = false → lpc ≠ ec → ∀ c ∈ l, (t = true → c ≤ i) ∧ (t = false → c < i)) ∧
        (k = false → lpc = ec → ∀ c ∈ l, (t = true → i ≤ c) ∧ (t = false → i < c)) := by
  intro fuel
  induction fuel with
  | zero => intro tiles start i lpc ec k d t ms fl h; cases h
  | succ n ih =>
    intro tiles start i lpc ec k d t ms fl h m hm l hl
    rcases check_move_succ_inv n tiles start i lpc ec k d t with
      h0 | ⟨he, hd1, hd2, j, pj, hstep, hget, hbr⟩
    · exact absurd (h0.symm.trans h) (by simp)
    rcases hbr with ⟨hact, hcol, ht, heq⟩ | ⟨hact, ht, heq⟩ | ⟨hact, ht, heq⟩
    · -- enemy hit: moves come from the inner taking call at j
      subst ht
      rw [heq] at h
      cases hT : check_move n tiles start j lpc ec k d true with
      | none => rw [hT] at h; exact Option.noConfusion h
      | some x =>
        cases x with
        | none => rw [hT] at h; exact Option.noConfusion (Option.some.inj h)
        | some p =>
          rcases p with ⟨msT, flT⟩
          rw [hT] at h
          dsimp only at h
          have hmem : m ∈ msT := by
            cases hflT : flT with
            | false =>
              rw [hflT] at h
              rw [if_neg (by decide)] at h
              cases h
              exact hm
            | true =>
              rw [hflT] at h
              rw [if_pos rfl] at h
              cases hrm : removeNoneCaptured msT.length 0 msT with
              | none => rw [hrm] at h; exact Option.noConfusion h
              | some msT' =>
                rw [hrm] at h
                cases h
                exact removeNoneCaptured_subset _ _ _ _ hrm m hm
          obtain ⟨hnd, hb1, hb2⟩ := ih tiles start j lpc ec k d true msT flT hT m hmem l hl
          refine ⟨hnd, ?_, ?_⟩
          · intro hk hne c hc
            have hcj := (hb1 hk hne c hc).1 rfl
            have hdown : d.is_down = false := by
              rw [hk] at hd1
              simpa [hne] using hd1
            have hup : d.is_up = true := by
              rw [Direction.is_up_eq_not_is_down, hdown]; rfl
            have hji : j < i := stepTo_up_lt hstep hup
            exact ⟨fun hcon => Bool.noConfusion hcon, fun _ => by omega⟩
          · intro hk hee c hc
            have hcj := (hb2 hk hee c hc).1 rfl
            have hupf : d.is_up = false := by
              rw [hk] at hd2
              simpa [hee] using hd2
            have hdown : d.is_down = true := by
              have h3 := Direction.is_up_eq_not_is_down d
              rw [hupf] at h3
              cases hdz : d.is_down
              · rw [hdz] at h3; exact absurd h3.symm (by decide)
              · rfl
            have hji : i < j := stepTo_down_gt hstep hdown
            exact ⟨fun hcon => Bool.noConfusion hcon, fun _ => by omega⟩
    · -- taking branch at empty landing j
      subst ht
      rw [heq] at h
      cases hC : contLoop (fun d' => check_move n tiles start j lpc ec
          (k || promotedFlag (decide (lpc ≠ ec)) j) d' false) i
          Direction.values none with
      | none => rw [hC] at h; exact Option.noConfusion h
      | some further =>
        rw [hC] at h
        dsimp only at h
        cases h
        cases hf : further with
        | none =>
          rw [hf] at hm
          rw [Option.getD_none] at hm
          rw [List.mem_singleton.mp hm] at hl
          have hli : l = [i] := Option.some.inj hl.symm
          subst hli
          refine ⟨List.nodup_singleton i, ?_, ?_⟩
          · intro _ _ c hc
            rw [List.mem_singleton.mp hc]
            exact ⟨fun _ => Nat.le_refl i, fun hcon => Bool.noConfusion hcon⟩
          · intro _ _ c hc
            rw [List.mem_singleton.mp hc]
            exact ⟨fun _ => Nat.le_refl i, fun hcon => Bool.noConfusion hcon⟩
        | some lF =>
          rw [hf] at hm
          rw [Option.getD_some] at hm
          rcases contLoop_mem Direction.values none further hC lF hf m hm with
            ⟨l0, hl0, _⟩ | ⟨d', ms0, fl0, m0, hCm, hfl0, hm0, hpush⟩
          · exact Option.noConfusion hl0
          cases hking : (k || promotedFlag (decide (lpc ≠ ec)) j) with
          | true =>
            rw [hking] at hCm
            have := king_no_capture n j d' ms0 fl0 ⟨pj, hget, hact⟩ hCm
            rw [this] at hfl0
            exact absurd hfl0 (by decide)
          | false =>
            have hkf : k = false := by
              cases hkz : k
              · rfl
              · rw [hkz] at hking; simp at hking
            rw [hking] at hCm
            subst hpush
            have hlval : l = (m0.captured.getD []) ++ [i] := by
              have := hl
              simp only [pushCaptured] at this
              exact (Option.some.inj this).symm
            subst hlval
            cases hc0 : m0.captured with
            | none =>
              simp only [Option.getD_none, List.nil_append]
              refine ⟨List.nodup_singleton i, ?_, ?_⟩
              · intro _ _ c hc
                rw [List.mem_singleton.mp hc]
                exact ⟨fun _ => Nat.le_refl i, fun hcon => Bool.noConfusion hcon⟩
              · intro _ _ c hc
                rw [List.mem_singleton.mp hc]
                exact ⟨fun _ => Nat.le_refl i, fun hcon => Bool.noConfusion hcon⟩
            | some l0 =>
              simp only [Option.getD_some]
              obtain ⟨hnd0, hb1, hb2⟩ :=
                ih tiles start j lpc ec false d' false ms0 fl0 hCm m0 hm0 l0 hc0
              by_cases hne : lpc = ec
              · have hupf : d.is_up = false := by
                  rw [hkf] at hd2
                  simpa [hne] using hd2
                have hdown : d.is_down = true := by
                  have h3 := Direction.is_up_eq_not_is_down d
                  rw [hupf] at h3
                  cases hdz : d.is_down
                  · rw [hdz] at h3; exact absurd h3.symm (by decide)
                  · rfl
                have hij : i < j := stepTo_down_gt hstep hdown
                have hbound : ∀ c ∈ l0, j < c := by
                  intro c hc
                  exact (hb2 rfl hne c hc).2 rfl
                refine ⟨?_, ?_, ?_⟩
                · refine List.Nodup.append hnd0 (List.nodup_singleton i) ?_
                  intro c hc hci
                  rw [List.mem_singleton.mp hci] at hc
                  have := hbound i hc
                  omega
                · intro _ hne2 _ _
                  exact absurd hne hne2
                · intro _ _ c hc
                  rcases List.mem_append.mp hc with hc | hc
                  · have := hbound c hc
                    exact ⟨fun _ => by omega, fun hcon => Bool.noConfusion hcon⟩
                  · rw [List.mem_singleton.mp hc]
                    exact ⟨fun _ => Nat.le_refl i, fun hcon => Bool.noConfusion hcon⟩
              · have hdown : d.is_down = false := by
                  rw [hkf] at hd1
                  simpa [hne] using hd1
                have hup : d.is_up = true := by
                  rw [Direction.is_up_eq_not_is_down, hdown]; rfl
                have hij : j < i := stepTo_up_lt hstep hup
                have hbound : ∀ c ∈ l0, c < j := by
                  intro c hc
                  exact (hb1 rfl hne c hc).2 rfl
                refine ⟨?_, ?_, ?_⟩
                · refine List.Nodup.append hnd0 (List.nodup_singleton i) ?_
                  intro c hc hci
                  rw [List.mem_singleton.mp hci] at hc
                  have := hbound i hc
                  omega
                · intro _ _ c hc
                  rcases List.mem_append.mp hc with hc | hc
                  · have := hbound c hc
                    exact ⟨fun _ => by omega, fun hcon => Bool.noConfusion hcon⟩
                  · rw [List.mem_singleton.mp hc]
                    exact ⟨fun _ => Nat.le_refl i, fun hcon => Bool.noConfusion hcon⟩
                · intro _ hee _ _
                  exact absurd hee hne
    · -- empty square, not taking
      subst ht
      rw [heq] at h
      cases hk : k with
      | false =>
        rw [hk] at h
        rw [if_neg (by decide)] at h
        dsimp only at h
        cases h
        rw [List.mem_singleton.mp hm] at hl
        exact Option.noConfusion hl
      | true =>
        rw [hk] at h
        rw [if_pos rfl] at h
        cases hS : check_move n tiles start j lpc ec true d false with
        | none => rw [hS] at h; exact Option.noConfusion h
        | some x =>
          cases x with
          | none =>
            rw [hS] at h
            dsimp only at h
            cases h
            rw [List.mem_singleton.mp hm] at hl
            exact Option.noConfusion hl
          | some p =>
            rcases p with ⟨msS, flS⟩
            rw [hS] at h
            dsimp only at h
            have hmem : m ∈ msS := by
              cases hflS : flS with
              | true =>
                rw [hflS] at h
                rw [if_pos rfl] at h
                cases h
                exact hm
              | false =>
                rw [hflS] at h
                rw [if_neg (by decide)] at h
                cases h
                rcases List.mem_append.mp hm with hm2 | hm2
                · exact hm2
                · rw [List.mem_singleton.mp hm2] at hl
                  exact absurd hl (by simp)
            obtain ⟨hnd, _, _⟩ :=
              ih tiles start j lpc ec true d false msS flS hS m hmem l hl
            exact ⟨hnd, fun hcon => Bool.noConfusion hcon,
              fun hcon => Bool.noConfusion hcon⟩

theorem dirLoop_mem {f : Direction → Option (Option (List Move × Bool))} :
    ∀ (ds : List Direction) (acc : Option (List Move)) (t : Bool)
      (accR : Option (List Move)) (tR : Bool),
      dirLoop f ds acc t = some (accR, tR) →
      ∀ l, accR = some l → ∀ m ∈ l,
        (∃ l0, acc = some l0 ∧ m ∈ l0) ∨
        (∃ d ms0 fl0, f d = some (some (ms0, fl0)) ∧ m ∈ ms0) := by
  intro ds
  induction ds with
  | nil =>
    intro acc t accR tR h l hl m hm
    simp only [dirLoop] at h
    cases h
    exact Or.inl ⟨l, hl, hm⟩
  | cons d0 ds ih =>
    intro acc t accR tR h l hl m hm
    cases h0 : f d0 with
    | none =>
      simp only [dirLoop, h0] at h
      exact Option.noConfusion h
    | some x =>
      cases x with
      | none =>
        simp only [dirLoop, h0] at h
        exact ih _ _ _ _ h l hl m hm
      | some p =>
        rcases p with ⟨ms0, fl0⟩
        simp only [dirLoop, h0] at h
        split at h
        · rcases ih _ _ _ _ h l hl m hm with ⟨l0, hl0, hml0⟩ | hr
          · cases hl0
            rcases List.mem_append.mp hml0 with hm2 | hm2
            · cases hz : acc with
              | none => rw [hz] at hm2; cases hm2
              | some l2 =>
                rw [hz] at hm2
                exact Or.inl ⟨l2, rfl, hm2⟩
            · exact Or.inr ⟨d0, ms0, fl0, h0, hm2⟩
          · exact Or.inr hr
        · rcases ih _ _ _ _ h l hl m hm with ⟨l0, hl0, hml0⟩ | hr
          · exact Or.inl ⟨l0, hl0, hml0⟩
          · exact Or.inr hr

theorem get_legal_moves_piece_unfold {fuel : Nat} {b : Board} {index : Nat}
    {ms : List Move} {fl : Bool}
    (h : get_legal_moves_piece fuel b index = some (some (ms, fl))) :
    ∃ piece accR msR, b.pieces.get? index = some piece ∧ piece.is_active = true ∧
      dirLoop (fun d => check_move fuel b.pieces index index b.player_color
          piece.color.get_opposite piece.is_king d false) Direction.values none false =
        some (accR, fl) ∧ accR = some msR ∧
      ms = (if fl = true then msR.filter (fun m => m.captured.isSome) else msR) := by
  unfold get_legal_moves_piece at h
  by_cases hlen : index < b.pieces.length
  · rw [if_pos hlen] at h
    split at h
    · exact Option.noConfusion (Option.some.inj h)
    rename_i piece hget
    split at h
    · exact Option.noConfusion (Option.some.inj h)
    rename_i hactb
    have hact : piece.is_active = true := by
      cases hiz : piece.is_active
      · exact absurd (by rw [hiz]; rfl) hactb
      · rfl
    cases hdl : dirLoop (fun d => check_move fuel b.pieces index index b.player_color
        piece.color.get_opposite piece.is_king d false) Direction.values none false with
    | none => rw [hdl] at h; exact Option.noConfusion h
    | some pr =>
      rcases pr with ⟨accR, tR⟩
      cases accR with
      | none =>
        rw [hdl] at h
        exact Option.noConfusion (Option.some.inj h)
      | some msR =>
        cases htR : tR with
        | false =>
          rw [htR] at hdl
          rw [hdl] at h
          have h' : some (some (msR, false)) = some (some (ms, fl)) := h
          cases h'
          exact ⟨piece, some ms, ms, hget, hact, hdl, rfl, by rw [if_neg (by decide)]⟩
        | true =>
          rw [htR] at hdl
          rw [hdl] at h
          have h' : some (some (msR.filter (fun m => m.captured.isSome), true)) =
              some (some (ms, fl)) := h
          cases h'
          exact ⟨piece, some msR, msR, hget, hact, hdl, rfl, by rw [if_pos rfl]⟩
  · rw [if_neg hlen] at h
    exact Option.noConfusion h

theorem get_legal_moves_piece_caps :
    ∀ (fuel : Nat) (b : Board) (index : Nat) (ms : List Move) (fl : Bool),
      get_legal_moves_piece fuel b index = some (some (ms, fl)) →
      ∀ m ∈ ms, ∀ l, m.captured = some l → l.Nodup := by
  intro fuel b index ms fl h m hm l hl
  obtain ⟨piece, accR, msR, hget, hact, hdl, haccR, hms⟩ := get_legal_moves_piece_unfold h
  have hmem : m ∈ msR := by
    rw [hms] at hm
    by_cases hfl : fl = true
    · rw [if_pos hfl] at hm
      exact List.mem_of_mem_filter hm
    · rw [if_neg hfl] at hm
      exact hm
  rcases dirLoop_mem Direction.values none false accR fl hdl msR haccR m hmem with
    ⟨l0, hl0, _⟩ | ⟨d, ms0, fl0, hcm, hm0⟩
  · exact Option.noConfusion hl0
  · exact (check_move_caps fuel b.pieces index index b.player_color
      piece.color.get_opposite piece.is_king d false ms0 fl0 hcm m hm0 l hl).1

/-- C3: every Move generated by `get_legal_moves_piece` has a
duplicate-free `captured` list: a capture chain never records the same
square twice in one Move.  (Man chains advance strictly through the
rows; a second capture of an already-jumped square by an
effectively-kinged piece would trigger the `div_cycle` non-termination,
so it never reaches a returned result.) -/
theorem claim3_no_double_capture (fuel : Nat) (b : Board) (index : Nat)
    (ms : List Move) (fl : Bool)
    (h : get_legal_moves_piece fuel b index = some (some (ms, fl))) :
    ∀ m ∈ ms, ∀ l, m.captured = some l → l.Nodup :=
  get_legal_moves_piece_caps fuel b index ms fl h

/-- C3 witness: the terminating double jump 26 → 17 → 10 on `capBoard`
captures the two distinct squares 21 and 13. -/
theorem claim3_witness :
    get_legal_moves_piece 20 capBoard 26 =
      some (some (([{ index := 26, endSq := 10, captured := some [13, 21],
                      promoted := false }] : List Move), true)) ∧
    ∀ m ∈ ([{ index := 26, endSq := 10, captured := some [13, 21],
              promoted := false }] : List Move),
      ∀ l, m.captured = some l → l.Nodup :=
  ⟨by decide, claim3_no_double_capture 20 capBoard 26
    [{ index := 26, endSq := 10, captured := some [13, 21], promoted := false }]
    true (by decide)⟩

/-! The side-wide aggregation loop (claims C1, C4, C5, C6). -/

theorem pieceLoop_inv {b : Board} {g : Nat → Option (Option (List Move × Bool))}
    (A : Bool → Move → Prop)
    (hg : ∀ idx p, b.pieces.get? idx = some p → p.color = b.player_color →
      ∀ ms fl, g idx = some (some (ms, fl)) → ms ≠ [] ∧ ∀ m ∈ ms, A fl m) :
    ∀ (idxs : List Nat) (acc : Option (List Move)) (t : Bool)
      (accR : Option (List Move)) (tR : Bool),
      pieceLoop b g idxs acc t = some (accR, tR) →
      (∀ l, acc = some l → l ≠ [] ∧ ∀ m ∈ l, A true m ∨ A false m) →
      (t = false → ∀ l, acc = some l → ∀ m ∈ l, A false m) →
      (t = true → ∀ l, acc = some l → ∃ m ∈ l, A true m) →
      ((∀ l, accR = some l → l ≠ [] ∧ ∀ m ∈ l, A true m ∨ A false m) ∧
        (tR = false → ∀ l, accR = some l → ∀ m ∈ l, A false m) ∧
        (tR = true → ∀ l, accR = some l → ∃ m ∈ l, A true m)) := by
  intro idxs
  induction idxs with
  | nil =>
    intro acc t accR tR h h1 h2 h3
    simp only [pieceLoop] at h
    cases h
    exact ⟨h1, h2, h3⟩
  | cons i0 idxs ih =>
    intro acc t accR tR h h1 h2 h3
    cases hp0 : b.pieces.get? i0 with
    | none =>
      simp only [pieceLoop, hp0] at h
      cases h
      exact ⟨fun l hl => Option.noConfusion hl, fun _ l hl => Option.noConfusion hl,
        fun _ l hl => Option.noConfusion hl⟩
    | some p0 =>
      simp only [pieceLoop, hp0] at h
      by_cases hc0 : p0.color ≠ b.player_color
      · rw [if_pos hc0] at h
        exact ih _ _ _ _ h h1 h2 h3
      · rw [if_neg hc0] at h
        push_neg at hc0
        cases h0 : g i0 with
        | none =>
          rw [h0] at h
          exact Option.noConfusion h
        | some x =>
          cases x with
          | none =>
            rw [h0] at h
            exact ih _ _ _ _ h h1 h2 h3
          | some pr =>
            rcases pr with ⟨ms0, fl0⟩
            obtain ⟨hne0, hA0⟩ := hg i0 p0 hp0 hc0 ms0 fl0 h0
            rw [h0] at h
            dsimp only at h
            cases hfl0 : fl0 with
            | true =>
              rw [hfl0] at h hA0
              rw [if_pos (by simp)] at h
              refine ih _ _ _ _ h ?_ ?_ ?_
              · intro l hl
                cases hl
                constructor
                · simp [hne0]
                · intro m hm
                  rcases List.mem_append.mp hm with hm | hm
                  · cases hz : acc with
                    | none => rw [hz] at hm; cases hm
                    | some l2 => rw [hz] at hm; exact (h1 l2 hz).2 m hm
                  · exact Or.inl (hA0 m hm)
              · intro hcon; simp at hcon
              · intro _ l hl
                cases hl
                obtain ⟨m0, hm0⟩ := List.exists_mem_of_ne_nil ms0 hne0
                exact ⟨m0, List.mem_append.mpr (Or.inr hm0), hA0 m0 hm0⟩
            | false =>
              rw [hfl0] at h hA0
              cases ht : t with
              | false =>
                rw [ht] at h h2 h3
                rw [if_pos (by simp)] at h
                simp only [Bool.or_false] at h
                refine ih _ _ _ _ h ?_ ?_ ?_
                · intro l hl
                  cases hl
                  constructor
                  · simp [hne0]
                  · intro m hm
                    rcases List.mem_append.mp hm with hm | hm
                    · cases hz : acc with
                      | none => rw [hz] at hm; cases hm
                      | some l2 => rw [hz] at hm; exact (h1 l2 hz).2 m hm
                    · exact Or.inr (hA0 m hm)
                · intro _ l hl
                  cases hl
                  intro m hm
                  rcases List.mem_append.mp hm with hm | hm
                  · cases hz : acc with
                    | none => rw [hz] at hm; cases hm
                    | some l2 => rw [hz] at hm; exact h2 rfl l2 hz m hm
                  · exact hA0 m hm
                · intro hcon; cases hcon
              | true =>
                rw [ht] at h h2 h3
                rw [if_neg (by simp)] at h
                refine ih _ _ _ _ h h1 ?_ ?_
                · intro hcon; cases hcon
                · intro _; exact h3 rfl

theorem pieceLoop_t_mono {b : Board} {g : Nat → Option (Option (List Move × Bool))} :
    ∀ (idxs : List Nat) (acc : Option (List Move)) (t : Bool)
      (accR : Option (List Move)) (tR : Bool),
      pieceLoop b g idxs acc t = some (accR, tR) → t = true → tR = true := by
  intro idxs
  induction idxs with
  | nil =>
    intro acc t accR tR h ht
    simp only [pieceLoop] at h
    cases h
    exact ht
  | cons i0 idxs ih =>
    intro acc t accR tR h ht
    subst ht
    cases hp0 : b.pieces.get? i0 with
    | none =>
      simp only [pieceLoop, hp0] at h
      cases h
      rfl
    | some p0 =>
      simp only [pieceLoop, hp0] at h
      split at h
      · exact ih _ _ _ _ h rfl
      · cases h0 : g i0 with
        | none => rw [h0] at h; exact Option.noConfusion h
        | some x =>
          cases x with
          | none => rw [h0] at h; exact ih _ _ _ _ h rfl
          | some pr =>
            rcases pr with ⟨ms0, fl0⟩
            rw [h0] at h
            dsimp only at h
            rw [Bool.true_or] at h
            split at h
            · exact ih _ _ _ _ h rfl
            · exact ih _ _ _ _ h rfl

theorem pieceLoop_flag {b : Board} {g : Nat → Option (Option (List Move × Bool))} :
    ∀ (idxs : List Nat) (acc : Option (List Move)) (t : Bool)
      (accR : Option (List Move)) (tR : Bool),
      pieceLoop b g idxs acc t = some (accR, tR) →
      (∀ j ∈ idxs, (b.pieces.get? j).isSome = true) →
      ∀ i ∈ idxs, ∀ p ms', b.pieces.get? i = some p → p.color = b.player_color →
        g i = some (some (ms', true)) → tR = true := by
  intro idxs
  induction idxs with
  | nil => intro acc t accR tR h _ i hi; cases hi
  | cons i0 idxs ih =>
    intro acc t accR tR h hsome i hi p ms' hgp hcolp hgi
    obtain ⟨p0, hp0⟩ := Option.isSome_iff_exists.mp (hsome i0 (List.mem_cons_self i0 idxs))
    rcases List.mem_cons.mp hi with hii | hii
    · subst hii
      have hpp : p0 = p := by rw [hp0] at hgp; exact Option.some.inj hgp
      subst hpp
      simp only [pieceLoop, hp0] at h
      rw [if_neg (by simp [hcolp])] at h
      rw [hgi] at h
      dsimp only at h
      rw [Bool.or_true] at h
      split at h
      · exact pieceLoop_t_mono _ _ _ _ _ h rfl
      · exact pieceLoop_t_mono _ _ _ _ _ h rfl
    · simp only [pieceLoop, hp0] at h
      split at h
      · exact ih _ _ _ _ h (fun j hj => hsome j (List.mem_cons_of_mem _ hj))
          i hii p ms' hgp hcolp hgi
      · cases h0 : g i0 with
        | none => rw [h0] at h; exact Option.noConfusion h
        | some x =>
          cases x with
          | none =>
            rw [h0] at h
            exact ih _ _ _ _ h (fun j hj => hsome j (List.mem_cons_of_mem _ hj))
              i hii p ms' hgp hcolp hgi
          | some pr =>
            rcases pr with ⟨ms0, fl0⟩
            rw [h0] at h
            dsimp only at h
            split at h
            · exact ih _ _ _ _ h (fun j hj => hsome j (List.mem_cons_of_mem _ hj))
                i hii p ms' hgp hcolp hgi
            · exact ih _ _ _ _ h (fun j hj => hsome j (List.mem_cons_of_mem _ hj))
                i hii p ms' hgp hcolp hgi

theorem get_legal_moves_unfold {fuel : Nat} {b : Board} {ms : List Move}
    (h : get_legal_moves fuel b = some (some ms)) :
    ∃ msR t, pieceLoop b (fun i => get_legal_moves_piece fuel b i)
        (List.range b.pieces.length) none false = some (some msR, t) ∧
      ms = (if t = true then msR.filter (fun m => m.captured.isSome) else msR) := by
  unfold get_legal_moves at h
  cases hpl : pieceLoop b (fun i => get_legal_moves_piece fuel b i)
      (List.range b.pieces.length) none false with
  | none => rw [hpl] at h; exact Option.noConfusion h
  | some pr =>
    rcases pr with ⟨accR, t⟩
    cases accR with
    | none =>
      rw [hpl] at h
      exact Option.noConfusion (Option.some.inj h)
    | some msR =>
      cases ht : t with
      | false =>
        rw [ht] at hpl
        rw [hpl] at h
        have h' : some (some msR) = some (some ms) := h
        cases h'
        exact ⟨ms, false, rfl, by rw [if_neg (by decide)]⟩
      | true =>
        rw [ht] at hpl
        rw [hpl] at h
        have h' : some (some (msR.filter (fun m => m.captured.isSome))) =
            some (some ms) := h
        cases h'
        exact ⟨msR, true, rfl, by rw [if_pos rfl]⟩

theorem glmp_topMove {fuel : Nat} {b : Board} {i : Nat} {p : PieceData}
    {ms : List Move} {fl : Bool}
    (hget : b.pieces.get? i = some p) (hcol : p.color = b.player_color)
    (h : get_legal_moves_piece fuel b i = some (some (ms, fl))) :
    ms ≠ [] ∧ ∀ m ∈ ms, TopMove b fl m := by
  obtain ⟨piece, hget2, hact, hne, hgood⟩ := get_legal_moves_piece_shape fuel b i ms fl h
  have hpp : piece = p := by rw [hget] at hget2; exact (Option.some.inj hget2).symm
  subst hpp
  refine ⟨hne, ?_⟩
  intro m hm
  obtain ⟨hidx, hend, hcap, hnoc⟩ := hgood m hm
  refine ⟨⟨piece, by rw [hidx]; exact hget, hact, hcol⟩, hend, ?_, hnoc⟩
  intro hfl
  obtain ⟨l, hl, hlne, hlen⟩ := hcap hfl
  refine ⟨l, hl, hlne, get_legal_moves_piece_caps fuel b i ms fl h m hm l hl, ?_⟩
  intro c hc
  have hen := hlen c hc
  rw [hcol] at hen
  exact hen

theorem get_legal_moves_shape :
    ∀ (fuel : Nat) (b : Board) (ms : List Move),
      get_legal_moves fuel b = some (some ms) →
      ms ≠ [] ∧ ((∀ m ∈ ms, TopMove b true m) ∨ (∀ m ∈ ms, TopMove b false m)) := by
  intro fuel b ms h
  obtain ⟨msR, t, hpl, hms⟩ := get_legal_moves_unfold h
  obtain ⟨c1, c2, c3⟩ := pieceLoop_inv (TopMove b)
    (fun idx p hgq hcolp ms' fl' hg => glmp_topMove hgq hcolp hg)
    (List.range b.pieces.length) none false (some msR) t hpl
    (fun l hl => Option.noConfusion hl)
    (fun _ l hl => Option.noConfusion hl)
    (fun _ l hl => Option.noConfusion hl)
  cases ht : t with
  | false =>
    rw [ht] at hms c2
    rw [if_neg (by decide)] at hms
    subst hms
    exact ⟨(c1 ms rfl).1, Or.inr (c2 rfl ms rfl)⟩
  | true =>
    rw [ht] at hms c3
    rw [if_pos rfl] at hms
    subst hms
    obtain ⟨m0, hm0, hA0⟩ := c3 rfl msR rfl
    obtain ⟨_, _, hcap0, _⟩ := hA0
    obtain ⟨l0, hl0, _, _, _⟩ := hcap0 rfl
    constructor
    · exact List.ne_nil_of_mem (List.mem_filter.mpr ⟨hm0, by simp [hl0]⟩)
    · refine Or.inl ?_
      intro m hm
      rw [List.mem_filter] at hm
      rcases (c1 msR rfl).2 m hm.1 with hA | hA
      · exact hA
      · obtain ⟨_, _, _, hnone⟩ := hA
        rw [hnone rfl] at hm
        exact absurd hm.2 (by decide)

theorem get_legal_moves_capture_only {fuel : Nat} {b : Board} {ms : List Move}
    {i : Nat} {p : PieceData} {pms : List Move}
    (h : get_legal_moves fuel b = some (some ms))
    (hget : b.pieces.get? i = some p) (hcol : p.color = b.player_color)
    (hglmp : get_legal_moves_piece fuel b i = some (some (pms, true))) :
    ∀ m ∈ ms, m.captured.isSome = true := by
  obtain ⟨msR, t, hpl, hms⟩ := get_legal_moves_unfold h
  have hilen : i < b.pieces.length := by
    by_contra hge
    rw [List.get?_eq_none.mpr (Nat.le_of_not_lt hge)] at hget
    cases hget
  have ht : t = true := pieceLoop_flag _ _ _ _ _ hpl
    (fun j hj => by
      rw [List.mem_range] at hj
      rw [List.get?_eq_get hj]
      rfl)
    i (List.mem_range.mpr hilen) p pms hget hcol hglmp
  rw [ht] at hms
  rw [if_pos rfl] at hms
  subst hms
  intro m hm
  exact (List.mem_filter.mp hm).2

/-- C1: `get_legal_moves` returns either Rust `None`, or a non-empty list
in which either every move carries a non-empty `captured` list or none
does; and as soon as any piece of the side to move has a capturing move,
no non-capturing move appears in the result. -/
theorem claim1_mandatory_capture (fuel : Nat) (b : Board) (res : Option (List Move))
    (h : get_legal_moves fuel b = some res) :
    (res = none ∨ ∃ ms, res = some ms ∧ ms ≠ [] ∧
      ((∀ m ∈ ms, ∃ l, m.captured = some l ∧ l ≠ []) ∨
        (∀ m ∈ ms, m.captured = none))) ∧
    (∀ i p pms, b.pieces.get? i = some p → p.color = b.player_color →
      get_legal_moves_piece fuel b i = some (some (pms, true)) →
      ∀ ms, res = some ms → ∀ m ∈ ms, m.captured.isSome = true) := by
  constructor
  · cases res with
    | none => exact Or.inl rfl
    | some ms =>
      obtain ⟨hne, hor⟩ := get_legal_moves_shape fuel b ms h
      refine Or.inr ⟨ms, rfl, hne, ?_⟩
      rcases hor with hall | hall
      · refine Or.inl ?_
        intro m hm
        obtain ⟨_, _, hcap, _⟩ := hall m hm
        obtain ⟨l, hl, hlne, _, _⟩ := hcap rfl
        exact ⟨l, hl, hlne⟩
      · refine Or.inr ?_
        intro m hm
        exact (hall m hm).2.2.2 rfl
  · intro i p pms hget hcol hglmp ms hres
    subst hres
    exact get_legal_moves_capture_only h hget hcol hglmp

/-- C1 witness: on `capBoard` the result is the single mandatory double
capture. -/
theorem claim1_witness :
    (some ([{ index := 26, endSq := 10, captured := some [13, 21],
              promoted := false }] : List Move) = none ∨
      ∃ ms, some ([{ index := 26, endSq := 10, captured := some [13, 21],
                     promoted := false }] : List Move) = some ms ∧ ms ≠ [] ∧
        ((∀ m ∈ ms, ∃ l, m.captured = some l ∧ l ≠ []) ∨
          (∀ m ∈ ms, m.captured = none))) :=
  (claim1_mandatory_capture 20 capBoard
    (some [{ index := 26, endSq := 10, captured := some [13, 21],
             promoted := false }]) (by decide)).1

theorem countFold_eq_zero {test : Nat → Option Bool} :
    ∀ n, countFold test n = some 0 → ∀ i, i < n → test i = some false := by
  intro n
  induction n with
  | zero => intro _ i hi; exact absurd hi (Nat.not_lt_zero i)
  | succ n ih =>
    intro h i hi
    rw [countFold_succ] at h
    cases hcf : countFold test n with
    | none => rw [hcf] at h; exact Option.noConfusion h
    | some acc =>
      cases htn : test n with
      | none => rw [hcf, htn] at h; exact Option.noConfusion h
      | some bv =>
        rw [hcf, htn] at h
        dsimp only at h
        have hsum : acc + (if bv then 1 else 0) = 0 := Option.some.inj h
        have hacc : acc = 0 := by omega
        have hbv : bv = false := by
          cases hbz : bv
          · rfl
          · rw [hbz] at hsum; simp at hsum
        rcases Nat.lt_succ_iff_lt_or_eq.mp hi with hi1 | hi1
        · exact ih (by rw [hcf, hacc]) i hi1
        · rw [hi1, htn, hbv]

theorem glmp_inactive {fuel : Nat} {b : Board} {i : Nat} {p : PieceData}
    (hget : b.pieces.get? i = some p) (hact : p.is_active = false)
    (hlen : i < b.pieces.length) :
    get_legal_moves_piece fuel b i = some none := by
  unfold get_legal_moves_piece
  rw [if_pos hlen, hget]
  split
  next heq => exact Option.noConfusion heq
  next piece heq =>
    rw [if_pos (by rw [show piece = p from (Option.some.inj heq).symm, hact]; rfl)]

theorem pieceLoop_skip {b : Board} {g : Nat → Option (Option (List Move × Bool))} :
    ∀ (idxs : List Nat) (t : Bool),
      (∀ idx ∈ idxs, ∀ p, b.pieces.get? idx = some p →
        p.color = b.player_color → g idx = some none) →
      pieceLoop b g idxs none t = some (none, t) := by
  intro idxs
  induction idxs with
  | nil => intro t _; rfl
  | cons i0 idxs ih =>
    intro t hskip
    cases hp0 : b.pieces.get? i0 with
    | none => simp only [pieceLoop, hp0]
    | some p0 =>
      simp only [pieceLoop, hp0]
      by_cases hc0 : p0.color ≠ b.player_color
      · rw [if_pos hc0]
        exact ih t (fun idx hidx => hskip idx (List.mem_cons_of_mem _ hidx))
      · rw [if_neg hc0]
        push_neg at hc0
        rw [hskip i0 (List.mem_cons_self i0 idxs) p0 hp0 hc0]
        exact ih t (fun idx hidx => hskip idx (List.mem_cons_of_mem _ hidx))

/-- C4 amended: `get_legal_moves` never returns an empty sequence.  A
`Some` result is always non-empty, and a side with zero active pieces
(witnessed through the code's own `get_player_piece_count`) gets Rust
`None`; a side whose pieces are all blocked also gets `None` (theorem
`claim4_counterexample`), not `Some []`. -/
theorem claim4_none_semantics :
    (∀ (fuel : Nat) (b : Board) (ms : List Move),
      get_legal_moves fuel b = some (some ms) → ms ≠ []) ∧
    (∀ (fuel : Nat) (b : Board), b.pieces.length = 32 →
      get_player_piece_count b = some 0 →
      get_legal_moves fuel b = some none) := by
  constructor
  · intro fuel b ms h
    exact (get_legal_moves_shape fuel b ms h).1
  · intro fuel b hlen hcount
    unfold get_player_piece_count at hcount
    have hskip : ∀ idx ∈ List.range b.pieces.length, ∀ p,
        b.pieces.get? idx = some p → p.color = b.player_color →
        get_legal_moves_piece fuel b idx = some none := by
      intro idx hidx p hget hcol
      rw [List.mem_range] at hidx
      have hidx32 : idx < 32 := by omega
      have htest := countFold_eq_zero 32 hcount idx hidx32
      unfold piece_is_player at htest
      rw [if_pos (by omega), hget] at htest
      simp only [Option.map_some'] at htest
      have hb : (p.color == b.player_color && p.is_active) = false :=
        Option.some.inj htest
      rw [hcol] at hb
      simp only [beq_self_eq_true, Bool.true_and] at hb
      exact glmp_inactive hget hb hidx
    unfold get_legal_moves
    rw [pieceLoop_skip (List.range b.pieces.length) false hskip]

/-- C4 witness for the amended statement: the non-empty capture result on
`capBoard`, and `None` on a board whose side to move has no active
piece. -/
theorem claim4_witness :
    (([{ index := 26, endSq := 10, captured := some [13, 21],
         promoted := false }] : List Move) ≠ []) ∧
    get_legal_moves 10 promBoard = some none :=
  ⟨claim4_none_semantics.1 20 capBoard _ (by decide),
    claim4_none_semantics.2 10 promBoard (by decide) (by decide)⟩

/-! Move application on generated moves (claims C5, C6). -/

theorem get_opposite_ne (c : PieceColor) : c.get_opposite ≠ c := by
  cases c <;> decide

theorem get_legal_moves_topMove {fuel : Nat} {b : Board} {ms : List Move} {mov : Move}
    (h : get_legal_moves fuel b = some (some ms)) (hm : mov ∈ ms) :
    TopMove b true mov ∨ TopMove b false mov := by
  obtain ⟨_, hor⟩ := get_legal_moves_shape fuel b ms h
  rcases hor with hall | hall
  · exact Or.inl (hall mov hm)
  · exact Or.inr (hall mov hm)

theorem claim5_core {b : Board} {mov : Move} {flv : Bool}
    (htop : TopMove b flv mov) :
    ∃ p b', b.pieces.get? mov.index = some p ∧ p.is_active = true ∧
      p.color = b.player_color ∧
      move_piece b mov = some b' ∧
      b'.pieces.get? mov.endSq = some { p with is_king := p.is_king || mov.promoted } ∧
      (∃ q, b'.pieces.get? mov.index = some q ∧ q.is_active = false) ∧
      (∀ l, mov.captured = some l → ∀ c ∈ l, ∃ q, b'.pieces.get? c = some q ∧
        q.is_active = false) := by
  obtain ⟨⟨p, hip, hact, hcolp⟩, ⟨pe, hep, hemp⟩, hcap, hnone⟩ := htop
  have hilen : mov.index < b.pieces.length := by
    by_contra hge
    rw [List.get?_eq_none.mpr (Nat.le_of_not_lt hge)] at hip
    cases hip
  have helen : mov.endSq < b.pieces.length := by
    by_contra hge
    rw [List.get?_eq_none.mpr (Nat.le_of_not_lt hge)] at hep
    cases hep
  have hie : mov.endSq ≠ mov.index := by
    intro hcon
    rw [hcon, hip] at hep
    rw [(Option.some.inj hep).symm] at hemp
    rw [hact] at hemp
    exact Bool.noConfusion hemp
  -- facts about the captured squares
  have hcapfacts : ∀ l, mov.captured = some l → ∀ c ∈ l,
      c < b.pieces.length ∧ c ≠ mov.index ∧ c ≠ mov.endSq := by
    intro l hl c hc
    cases flv with
    | false =>
      rw [hnone rfl] at hl
      exact Option.noConfusion hl
    | true =>
      obtain ⟨l2, hl2, _, _, hen⟩ := hcap rfl
      rw [hl2] at hl
      cases Option.some.inj hl
      obtain ⟨q, hq, hqact, hqcol⟩ := hen c hc
      have hclen : c < b.pieces.length := by
        by_contra hge
        rw [List.get?_eq_none.mpr (Nat.le_of_not_lt hge)] at hq
        cases hq
      refine ⟨hclen, ?_, ?_⟩
      · intro hcon
        rw [hcon, hip] at hq
        rw [(Option.some.inj hq).symm, hcolp] at hqcol
        exact get_opposite_ne b.player_color hqcol.symm
      · intro hcon
        rw [hcon, hep] at hq
        rw [(Option.some.inj hq).symm] at hqact
        rw [hemp] at hqact
        exact Bool.noConfusion hqact
  -- build the application
  have hset1 : setRow b.pieces mov.endSq
      { p with is_king := p.is_king || mov.promoted } =
      some (b.pieces.set mov.endSq { p with is_king := p.is_king || mov.promoted }) := by
    unfold setRow; rw [if_pos helen]
  have hlen1 : (b.pieces.set mov.endSq
      { p with is_king := p.is_king || mov.promoted }).length = b.pieces.length := by
    simp
  have hset2 : setRow (b.pieces.set mov.endSq
        { p with is_king := p.is_king || mov.promoted }) mov.index
        PieceData.const_default =
      some ((b.pieces.set mov.endSq
        { p with is_king := p.is_king || mov.promoted }).set mov.index
        PieceData.const_default) := by
    unfold setRow; rw [if_pos (by rw [hlen1]; exact hilen)]
  set l2 := (b.pieces.set mov.endSq
    { p with is_king := p.is_king || mov.promoted }).set mov.index
    PieceData.const_default with hl2def
  have hlen2 : l2.length = b.pieces.length := by
    rw [hl2def]; simp
  have hl2end : l2.get? mov.endSq =
      some { p with is_king := p.is_king || mov.promoted } := by
    rw [hl2def, List.get?_set_ne _ _ (fun hh => hie (hh.symm)),
      List.get?_set_eq_of_lt _ helen]
  have hl2idx : l2.get? mov.index = some PieceData.const_default := by
    rw [hl2def, List.get?_set_eq_of_lt _ (by rw [hlen1]; exact hilen)]
  cases hcapo : mov.captured with
  | none =>
    refine ⟨p, { b with pieces := l2 }, hip, hact, hcolp, ?_, hl2end, ?_, ?_⟩
    · unfold move_piece
      rw [hip]
      dsimp only
      rw [hset1]
      dsimp only
      rw [hset2]
      dsimp only
      rw [hcapo]
    · exact ⟨PieceData.const_default, hl2idx, rfl⟩
    · intro l hl
      exact Option.noConfusion hl
  | some cs =>
    obtain ⟨l3, hl3⟩ := clearSquares_isSome cs l2
      (fun c hc => by rw [hlen2]; exact (hcapfacts cs hcapo c hc).1)
    obtain ⟨_, hfr, hmemd⟩ := clearSquares_spec cs l2 l3 hl3
    refine ⟨p, { b with pieces := l3 }, hip, hact, hcolp, ?_, ?_, ?_, ?_⟩
    · unfold move_piece
      rw [hip]
      dsimp only
      rw [hset1]
      dsimp only
      rw [hset2]
      dsimp only
      rw [hcapo]
      dsimp only
      rw [hl3]
    · show l3.get? mov.endSq = _
      rw [hfr mov.endSq (fun hc => (hcapfacts cs hcapo _ hc).2.2 rfl), hl2end]
    · refine ⟨PieceData.const_default, ?_, rfl⟩
      show l3.get? mov.index = _
      rw [hfr mov.index (fun hc => (hcapfacts cs hcapo _ hc).2.1 rfl), hl2idx]
    · intro l hl c hc
      cases Option.some.inj hl
      exact ⟨PieceData.const_default, hmemd c hc, rfl⟩

/-- C5: applying an engine-generated move puts the moving piece (with
`is_king` or-ed with `promoted`) on the destination square, empties the
origin square, and empties every captured square. -/
theorem claim5_move_application (fuel : Nat) (b : Board) (ms : List Move) (mov : Move)
    (h : get_legal_moves fuel b = some (some ms)) (hm : mov ∈ ms) :
    ∃ p b', b.pieces.get? mov.index = some p ∧ p.is_active = true ∧
      move_piece b mov = some b' ∧
      b'.pieces.get? mov.endSq = some { p with is_king := p.is_king || mov.promoted } ∧
      (∃ q, b'.pieces.get? mov.index = some q ∧ q.is_active = false) ∧
      (∀ l, mov.captured = some l → ∀ c ∈ l, ∃ q, b'.pieces.get? c = some q ∧
        q.is_active = false) := by
  rcases get_legal_moves_topMove h hm with htop | htop
  · obtain ⟨p, b', h1, h2, _, h4, h5, h6, h7⟩ := claim5_core htop
    exact ⟨p, b', h1, h2, h4, h5, h6, h7⟩
  · obtain ⟨p, b', h1, h2, _, h4, h5, h6, h7⟩ := claim5_core htop
    exact ⟨p, b', h1, h2, h4, h5, h6, h7⟩

theorem claim5_witness :
    ∃ p b', capBoard.pieces.get? 26 = some p ∧ p.is_active = true ∧
      move_piece capBoard
        { index := 26, endSq := 10, captured := some [13, 21],
          promoted := false } = some b' ∧
      b'.pieces.get? 10 = some { p with is_king := p.is_king || false } ∧
      (∃ q, b'.pieces.get? 26 = some q ∧ q.is_active = false) ∧
      (∀ l, (some [13, 21] : Option (List Nat)) = some l → ∀ c ∈ l,
        ∃ q, b'.pieces.get? c = some q ∧ q.is_active = false) :=
  claim5_move_application 20 capBoard
    [{ index := 26, endSq := 10, captured := some [13, 21], promoted := false }]
    { index := 26, endSq := 10, captured := some [13, 21], promoted := false }
    (by decide) (List.mem_singleton.mpr rfl)

/-! Counting across move application (claim C6). -/

theorem countP_set (f : PieceData → Bool) :
    ∀ (l : List PieceData) (i : Nat) (x old : PieceData), l.get? i = some old →
    (l.set i x).countP f + (if f old then 1 else 0) =
      l.countP f + (if f x then 1 else 0) := by
  intro l
  induction l with
  | nil => intro i x old h; cases h
  | cons a l ih =>
    intro i x old h
    cases i with
    | zero =>
      cases Option.some.inj h
      simp only [List.set, List.countP_cons]
      rw [Nat.add_right_comm]
    | succ i =>
      have ih2 := ih i x old h
      simp only [List.set, List.countP_cons]
      omega

theorem clearSquares_countP_drop (f : PieceData → Bool)
    (hdf : f PieceData.const_default = false) :
    ∀ (cs : List Nat) (l l' : List PieceData), clearSquares l cs = some l' →
    cs.Nodup → (∀ c ∈ cs, ∃ q, l.get? c = some q ∧ f q = true) →
    l'.countP f + cs.length = l.countP f := by
  intro cs
  induction cs with
  | nil =>
    intro l l' h _ _
    cases Option.some.inj h
    simp
  | cons c cs ih =>
    intro l l' h hnd hmem
    simp only [clearSquares] at h
    obtain ⟨q, hq, hfq⟩ := hmem c (List.mem_cons_self c cs)
    have hc : c < l.length := by
      by_contra hge
      rw [List.get?_eq_none.mpr (Nat.le_of_not_lt hge)] at hq
      cases hq
    have hset : setRow l c PieceData.const_default =
        some (l.set c PieceData.const_default) := by
      unfold setRow; rw [if_pos hc]
    rw [hset] at h
    have hnd2 := List.nodup_cons.mp hnd
    have hmem2 : ∀ d ∈ cs, ∃ q2, (l.set c PieceData.const_default).get? d = some q2 ∧
        f q2 = true := by
      intro d hd
      obtain ⟨qd, hqd, hfqd⟩ := hmem d (List.mem_cons_of_mem _ hd)
      refine ⟨qd, ?_, hfqd⟩
      rw [List.get?_set_ne _ _ (fun hh => hnd2.1 (by rw [hh]; exact hd))]
      exact hqd
    have hrec := ih _ _ h hnd2.2 hmem2
    have hcp := countP_set f l c PieceData.const_default q hq
    rw [hfq, hdf] at hcp
    simp at hcp
    simp only [List.length_cons]
    omega

theorem clearSquares_countP_keep (f : PieceData → Bool)
    (hdf : f PieceData.const_default = false) :
    ∀ (cs : List Nat) (l l' : List PieceData), clearSquares l cs = some l' →
    (∀ c ∈ cs, ∃ q, l.get? c = some q ∧ f q = false) →
    l'.countP f = l.countP f := by
  intro cs
  induction cs with
  | nil =>
    intro l l' h _
    cases Option.some.inj h
    rfl
  | cons c cs ih =>
    intro l l' h hmem
    simp only [clearSquares] at h
    obtain ⟨q, hq, hfq⟩ := hmem c (List.mem_cons_self c cs)
    have hc : c < l.length := by
      by_contra hge
      rw [List.get?_eq_none.mpr (Nat.le_of_not_lt hge)] at hq
      cases hq
    have hset : setRow l c PieceData.const_default =
        some (l.set c PieceData.const_default) := by
      unfold setRow; rw [if_pos hc]
    rw [hset] at h
    have hmem2 : ∀ d ∈ cs, ∃ q2, (l.set c PieceData.const_default).get? d = some q2 ∧
        f q2 = false := by
      intro d hd
      by_cases hdc : d = c
      · subst hdc
        exact ⟨PieceData.const_default, by rw [List.get?_set_eq_of_lt _ hc], hdf⟩
      · obtain ⟨qd, hqd, hfqd⟩ := hmem d (List.mem_cons_of_mem _ hd)
        refine ⟨qd, ?_, hfqd⟩
        rw [List.get?_set_ne _ _ (fun hh => hdc hh.symm)]
        exact hqd
    have hrec := ih _ _ h hmem2
    have hcp := countP_set f l c PieceData.const_default q hq
    rw [hfq, hdf] at hcp
    simp at hcp
    omega

theorem countFold_countP {test : Nat → Option Bool} {f : PieceData → Bool}
    {l : List PieceData} :
    ∀ n, n ≤ l.length → (∀ i, i < n → test i = (l.get? i).map f) →
    countFold test n = some ((l.take n).countP f) := by
  intro n
  induction n with
  | zero => intro _ _; rfl
  | succ n ih =>
    intro hle htest
    have hn : n < l.length := hle
    have hget : l.get? n = some (l.get ⟨n, hn⟩) := List.get?_eq_get hn
    rw [countFold_succ, ih (Nat.le_of_succ_le hle)
      (fun i hi => htest i (Nat.lt_succ_of_lt hi)),
      htest n (Nat.lt_succ_self n), hget]
    simp only [Option.map_some']
    congr 1
    have hget2 : l[n]? = some (l.get ⟨n, hn⟩) := by
      rw [← List.get?_eq_getElem?]; exact hget
    rw [List.take_succ, List.countP_append, hget2]
    simp [List.countP_cons]

theorem player_count_eq_countP (b : Board) (h32 : b.pieces.length = 32) :
    get_player_piece_count b =
      some (b.pieces.countP (fPlayer b.player_color)) := by
  have hf : ∀ i, i < 32 →
      piece_is_player b i = (b.pieces.get? i).map (fPlayer b.player_color) := by
    intro i hi
    unfold piece_is_player
    rw [if_pos (by omega)]
    rfl
  have h := countFold_countP 32 (Nat.le_of_eq h32.symm) hf
  have ht : b.pieces.take 32 = b.pieces := by rw [← h32, List.take_length]
  rw [ht] at h
  exact h

theorem enemy_count_eq_countP (b : Board) (h32 : b.pieces.length = 32) :
    get_enemy_piece_count b =
      some (b.pieces.countP (fEnemy b.player_color)) := by
  have hf : ∀ i, i < 32 →
      piece_is_enemy b i = (b.pieces.get? i).map (fEnemy b.player_color) := by
    intro i hi
    unfold piece_is_enemy
    rw [if_pos (by omega)]
    rfl
  have h := countFold_countP 32 (Nat.le_of_eq h32.symm) hf
  have ht : b.pieces.take 32 = b.pieces := by rw [← h32, List.take_length]
  rw [ht] at h
  exact h

theorem fPlayer_self {pc : PieceColor} {q : PieceData} (hc : q.color = pc)
    (ha : q.is_active = true) : fPlayer pc q = true := by
  unfold fPlayer; rw [hc, ha]; cases pc <;> rfl

theorem fPlayer_opp {pc : PieceColor} {q : PieceData}
    (hc : q.color = pc.get_opposite) : fPlayer pc q = false := by
  unfold fPlayer; rw [hc]; cases pc <;> rfl

theorem fPlayer_inactive {pc : PieceColor} {q : PieceData}
    (ha : q.is_active = false) : fPlayer pc q = false := by
  unfold fPlayer; rw [ha]; exact Bool.and_false _

theorem fEnemy_self {pc : PieceColor} {q : PieceData} (hc : q.color = pc) :
    fEnemy pc q = false := by
  unfold fEnemy; rw [hc]; cases pc <;> rfl

theorem fEnemy_opp {pc : PieceColor} {q : PieceData}
    (hc : q.color = pc.get_opposite) (ha : q.is_active = true) :
    fEnemy pc q = true := by
  unfold fEnemy; rw [hc, ha]; cases pc <;> rfl

theorem fEnemy_inactive {pc : PieceColor} {q : PieceData}
    (ha : q.is_active = false) : fEnemy pc q = false := by
  unfold fEnemy; rw [ha]; exact Bool.and_false _

/-- C6: applying an engine-generated move leaves the player piece count
unchanged, never increases the enemy piece count, and the sum of the two
active-piece counts drops by exactly the length of the captured list
(and is unchanged for a non-capturing move). -/
theorem claim6_count_decrease (fuel : Nat) (b : Board) (ms : List Move)
    (mov : Move) (b' : Board) (h32 : b.pieces.length = 32)
    (h : get_legal_moves fuel b = some (some ms)) (hm : mov ∈ ms)
    (hmp : move_piece b mov = some b') :
    ∃ p e p' e',
      get_player_piece_count b = some p ∧ get_enemy_piece_count b = some e ∧
      get_player_piece_count b' = some p' ∧ get_enemy_piece_count b' = some e' ∧
      p' = p ∧ e' ≤ e ∧
      (mov.captured = none → p' + e' = p + e) ∧
      (∀ l, mov.captured = some l → p' + e' + l.length = p + e) := by
  have hfacts : (∃ q, b.pieces.get? mov.index = some q ∧ q.is_active = true ∧
      q.color = b.player_color) ∧ emptyAt b.pieces mov.endSq ∧
      (∀ l, mov.captured = some l → l.Nodup ∧
        ∀ c ∈ l, enemyAt b.pieces b.player_color.get_opposite c) := by
    rcases get_legal_moves_topMove h hm with htop | htop
    · obtain ⟨h1, h2, h3, _⟩ := htop
      refine ⟨h1, h2, ?_⟩
      intro l hl
      obtain ⟨l1, hl1, _, hnd, hen⟩ := h3 rfl
      rw [hl1] at hl
      cases Option.some.inj hl
      exact ⟨hnd, hen⟩
    · obtain ⟨h1, h2, _, h4⟩ := htop
      refine ⟨h1, h2, ?_⟩
      intro l hl
      rw [h4 rfl] at hl
      cases hl
  obtain ⟨⟨p0, hip, hact, hcolp⟩, ⟨pe, hep, hemp⟩, hcapP⟩ := hfacts
  obtain ⟨sd, hsd, helen, hilen, hpc, l2, hl2, hrest⟩ := move_piece_unfold hmp
  cases Option.some.inj (hip.symm.trans hsd)
  have hie : mov.endSq ≠ mov.index := by
    intro hcon
    rw [hcon, hip] at hep
    cases Option.some.inj hep
    rw [hact] at hemp
    exact Bool.noConfusion hemp
  have hl1i : (b.pieces.set mov.endSq
      { p0 with is_king := p0.is_king || mov.promoted }).get? mov.index = some p0 := by
    rw [List.get?_set_ne _ _ (fun hh => hie hh)]
    exact hip
  have hl2len : l2.length = 32 := by rw [hl2]; simpa using h32
  have hnewP : fPlayer b.player_color
      { color := p0.color, is_active := p0.is_active,
        is_king := p0.is_king || mov.promoted } = true := fPlayer_self hcolp hact
  have hnewE : fEnemy b.player_color
      { color := p0.color, is_active := p0.is_active,
        is_king := p0.is_king || mov.promoted } = false := fEnemy_self hcolp
  have hdP : fPlayer b.player_color PieceData.const_default = false :=
    fPlayer_inactive rfl
  have hdE : fEnemy b.player_color PieceData.const_default = false :=
    fEnemy_inactive rfl
  -- player count is preserved by the two writes
  have hcp1P := countP_set (fPlayer b.player_color) b.pieces mov.endSq
    { p0 with is_king := p0.is_king || mov.promoted } pe hep
  rw [fPlayer_inactive hemp, hnewP] at hcp1P
  simp at hcp1P
  have hcp2P := countP_set (fPlayer b.player_color)
    (b.pieces.set mov.endSq { p0 with is_king := p0.is_king || mov.promoted })
    mov.index PieceData.const_default p0 hl1i
  rw [fPlayer_self hcolp hact, hdP] at hcp2P
  simp at hcp2P
  have hl2P : l2.countP (fPlayer b.player_color) =
      b.pieces.countP (fPlayer b.player_color) := by
    rw [hl2]; omega
  -- enemy count is preserved by the two writes
  have hcp1E := countP_set (fEnemy b.player_color) b.pieces mov.endSq
    { p0 with is_king := p0.is_king || mov.promoted } pe hep
  rw [fEnemy_inactive hemp, hnewE] at hcp1E
  simp at hcp1E
  have hcp2E := countP_set (fEnemy b.player_color)
    (b.pieces.set mov.endSq { p0 with is_king := p0.is_king || mov.promoted })
    mov.index PieceData.const_default p0 hl1i
  rw [fEnemy_self hcolp, hdE] at hcp2E
  simp at hcp2E
  have hl2E : l2.countP (fEnemy b.player_color) =
      b.pieces.countP (fEnemy b.player_color) := by
    rw [hl2]; omega
  have hPb := player_count_eq_countP b h32
  have hEb := enemy_count_eq_countP b h32
  rcases hrest with ⟨hcnone, hbl2⟩ | ⟨cs, hcs, hclear⟩
  · -- no capture: both counts unchanged
    have h32b : b'.pieces.length = 32 := by rw [hbl2]; exact hl2len
    have hPb2 := player_count_eq_countP b' h32b
    have hEb2 := enemy_count_eq_countP b' h32b
    rw [hpc, hbl2] at hPb2 hEb2
    refine ⟨_, _, _, _, hPb, hEb, hPb2, hEb2, ?_, ?_, ?_, ?_⟩
    · rw [hl2P]
    · rw [hl2E]
    · intro _; rw [hl2P, hl2E]
    · intro l hl
      rw [hcnone] at hl
      cases hl
  · -- capture: enemy count drops by the number of captured squares
    obtain ⟨hnd, hen⟩ := hcapP cs hcs
    have hcfacts : ∀ c ∈ cs, ∃ q, l2.get? c = some q ∧ q.is_active = true ∧
        q.color = b.player_color.get_opposite := by
      intro c hc
      obtain ⟨q, hq, hqact, hqcol⟩ := hen c hc
      have hci : c ≠ mov.index := by
        intro hcon
        rw [hcon, hip] at hq
        cases Option.some.inj hq
        rw [hcolp] at hqcol
        exact get_opposite_ne b.player_color hqcol.symm
      have hce : c ≠ mov.endSq := by
        intro hcon
        rw [hcon, hep] at hq
        cases Option.some.inj hq
        rw [hemp] at hqact
        exact Bool.noConfusion hqact
      refine ⟨q, ?_, hqact, hqcol⟩
      rw [hl2, List.get?_set_ne _ _ (fun hh => hci hh.symm),
        List.get?_set_ne _ _ (fun hh => hce hh.symm)]
      exact hq
    obtain ⟨hlen3, _, _⟩ := clearSquares_spec cs l2 _ hclear
    have h32b : b'.pieces.length = 32 := by rw [hlen3]; exact hl2len
    have hPb2 := player_count_eq_countP b' h32b
    have hEb2 := enemy_count_eq_countP b' h32b
    rw [hpc] at hPb2 hEb2
    have hkeep := clearSquares_countP_keep (fPlayer b.player_color)
      (fPlayer_inactive rfl) cs l2 _ hclear
      (fun c hc => by
        obtain ⟨q, hq, _, hqcol⟩ := hcfacts c hc
        exact ⟨q, hq, fPlayer_opp hqcol⟩)
    have hdrop := clearSquares_countP_drop (fEnemy b.player_color)
      (fEnemy_inactive rfl) cs l2 _ hclear hnd
      (fun c hc => by
        obtain ⟨q, hq, hqact, hqcol⟩ := hcfacts c hc
        exact ⟨q, hq, fEnemy_opp hqcol hqact⟩)
    refine ⟨_, _, _, _, hPb, hEb, hPb2, hEb2, ?_, ?_, ?_, ?_⟩
    · rw [hkeep, hl2P]
    · omega
    · intro hcon
      rw [hcs] at hcon
      cases hcon
    · intro l hl
      rw [hcs] at hl
      cases Option.some.inj hl
      omega

theorem claim6_witness :
    ∃ b', move_piece capBoard
        { index := 26, endSq := 10, captured := some [13, 21], promoted := false } =
        some b' ∧
      ∃ p e p' e',
        get_player_piece_count capBoard = some p ∧
        get_enemy_piece_count capBoard = some e ∧
        get_player_piece_count b' = some p' ∧
        get_enemy_piece_count b' = some e' ∧
        p' = p ∧ e' ≤ e ∧
        ((some [13, 21] : Option (List Nat)) = none → p' + e' = p + e) ∧
        (∀ l, (some [13, 21] : Option (List Nat)) = some l →
          p' + e' + l.length = p + e) := by
  cases hmp : move_piece capBoard
      { index := 26, endSq := 10, captured := some [13, 21], promoted := false } with
  | none => exact absurd hmp (by decide)
  | some b2 =>
    exact ⟨b2, rfl, claim6_count_decrease 20 capBoard
      [{ index := 26, endSq := 10, captured := some [13, 21], promoted := false }]
      { index := 26, endSq := 10, captured := some [13, 21], promoted := false }
      b2 (by decide) (by decide) (List.mem_singleton.mpr rfl) hmp⟩

/-! King slides along a clear diagonal (claim C8). -/

theorem check_move_blocked {n : Nat} {tiles : List PieceData} {start i : Nat}
    {lpc ec : PieceColor} {d : Direction}
    (hbl : Blocked tiles ec d i) :
    check_move (n + 1) tiles start i lpc ec true d false = some none := by
  rcases check_move_succ_inv n tiles start i lpc ec true d false with hres |
    ⟨he, _, _, j, pj, hstep, hgj, hbr⟩
  · exact hres
  · exfalso
    obtain ⟨hedge, hnn, htn⟩ := hstep
    have hjlen : j < tiles.length := by
      by_contra hge
      rw [List.get?_eq_none.mpr (Nat.le_of_not_lt hge)] at hgj
      cases hgj
    rcases hbl with hbl | hbl | hbl | ⟨q, hq, hqa, hqc⟩
    · rw [hedge] at hbl
      exact Bool.noConfusion hbl
    · omega
    · rw [htn, hgj] at hbl
      cases hbl
    · rw [htn, hgj] at hq
      cases Option.some.inj hq
      rcases hbr with ⟨_, hc, _, _⟩ | ⟨ha, _, _⟩ | ⟨ha, _, _⟩
      · exact hqc hc
      · rw [hqa] at ha
        exact Bool.noConfusion ha
      · rw [hqa] at ha
        exact Bool.noConfusion ha

theorem king_ray_moves (tiles : List PieceData) (start : Nat) (lpc ec : PieceColor)
    (d : Direction) :
    ∀ (squares : List Nat), ∀ i : Nat, KingRay tiles ec d i squares →
      ∀ fuel, squares.length + 1 ≤ fuel →
      (squares = [] → check_move fuel tiles start i lpc ec true d false = some none) ∧
      (squares ≠ [] → check_move fuel tiles start i lpc ec true d false =
        some (some ((squares.map (fun e =>
          { index := start, endSq := e, captured := none,
            promoted := promotedFlag (decide (lpc ≠ ec)) e })).reverse, false))) := by
  intro squares
  induction squares with
  | nil =>
    intro i hray fuel hfuel
    refine ⟨fun _ => ?_, fun hne => absurd rfl hne⟩
    cases fuel with
    | zero => omega
    | succ m => exact check_move_blocked hray
  | cons j rest ih =>
    intro i hray fuel hfuel
    obtain ⟨hstep, hemp, hrest⟩ := hray
    cases fuel with
    | zero => omega
    | succ m =>
    refine ⟨fun hcon => List.noConfusion hcon, fun _ => ?_⟩
    rw [check_move_slide_empty hstep hemp]
    have hm : rest.length + 1 ≤ m := by
      simp only [List.length_cons] at hfuel
      omega
    cases rest with
    | nil =>
      rw [(ih j hrest m hm).1 rfl]
      rfl
    | cons j2 rest2 =>
      rw [(ih j hrest m hm).2 (List.cons_ne_nil j2 rest2)]
      simp [List.reverse_cons]

theorem check_move_man_slide {n : Nat} {tiles : List PieceData} {start i L : Nat}
    {lpc ec : PieceColor} {d : Direction}
    (hstep : StepTo i d L) (hL : emptyAt tiles L)
    (hd1 : (d.is_down && decide (lpc ≠ ec)) = false)
    (hd2 : (d.is_up && !decide (lpc ≠ ec)) = false) :
    check_move (n + 1) tiles start i lpc ec false d false =
      some (some ([{ index := start, endSq := L, captured := none,
                     promoted := promotedFlag (decide (lpc ≠ ec)) L }], false)) := by
  obtain ⟨he, hnn, htn⟩ := hstep
  obtain ⟨pL, hgL, hactL⟩ := hL
  have hnext : (i : Int) + d.get_value i = (L : Int) := by omega
  have hLlen : L < tiles.length := by
    by_contra hge
    rw [List.get?_eq_none.mpr (Nat.le_of_not_lt hge)] at hgL
    cases hgL
  obtain ⟨hc1, hc2⟩ := edgeOk_conds he
  have hb : ¬((L : Int) < 0 ∨ (L : Int) > (tiles.length : Int)) := by omega
  have hp4 : decide ((L : Int) < 4) = decide (L < 4) := decide_eq_decide.mpr (by omega)
  have hp28 : decide ((L : Int) > 32 - 4) = decide (L > 28) :=
    decide_eq_decide.mpr (by omega)
  simp only [check_move, hc1, hc2, hnext, Bool.false_eq_true, if_false, Bool.not_false,
    Bool.true_and, hd1, hd2, hb, Int.toNat_natCast, hgL, hactL, if_true,
    hp4, hp28, promotedFlag]

/-- C8: along an otherwise-clear diagonal the direction search of a king
returns one simple move per consecutive empty square, ordered farthest
first, and stops at the first blocked square; the direction search of a
non-king piece returns exactly the single one-step move to the adjacent
empty square. -/
theorem claim8_slide_enumeration (tiles : List PieceData) (start : Nat)
    (lpc ec : PieceColor) (d : Direction) :
    (∀ i squares, KingRay tiles ec d i squares → squares ≠ [] →
      ∀ fuel, squares.length + 1 ≤ fuel →
      check_move fuel tiles start i lpc ec true d false =
        some (some ((squares.map (fun e =>
          { index := start, endSq := e, captured := none,
            promoted := promotedFlag (decide (lpc ≠ ec)) e })).reverse, false))) ∧
    (∀ i j fuel, StepTo i d j → emptyAt tiles j →
      (d.is_down && decide (lpc ≠ ec)) = false →
      (d.is_up && !decide (lpc ≠ ec)) = false →
      check_move (fuel + 1) tiles start i lpc ec false d false =
        some (some ([{ index := start, endSq := j, captured := none,
                       promoted := promotedFlag (decide (lpc ≠ ec)) j }], false))) := by
  refine ⟨?_, ?_⟩
  · intro i squares hray hne fuel hfuel
    exact (king_ray_moves tiles start lpc ec d squares i hray fuel hfuel).2 hne
  · intro i j fuel hstep hemp hd1 hd2
    exact check_move_man_slide hstep hemp hd1 hd2

theorem claim8_witness :
    check_move 3 slideBoard.pieces 0 0 .white .black true .downRight false =
      some (some ([{ index := 0, endSq := 9, captured := none, promoted := false },
        { index := 0, endSq := 4, captured := none, promoted := false }], false)) ∧
    check_move 2 slideBoard.pieces 9 9 .white .black false .upLeft false =
      some (some ([{ index := 9, endSq := 4, captured := none, promoted := false }],
        false)) := by
  have hray : KingRay slideBoard.pieces .black .downRight 0 [4, 9] :=
    ⟨⟨by decide, by decide, by decide⟩, ⟨PieceData.const_default, by decide, rfl⟩,
      ⟨by decide, by decide, by decide⟩, ⟨PieceData.const_default, by decide, rfl⟩,
      Or.inr (Or.inr (Or.inr ⟨whiteMan, by decide, rfl, by decide⟩))⟩
  have h1 := (claim8_slide_enumeration slideBoard.pieces 0 .white .black .downRight).1
    0 [4, 9] hray (by decide) 3 (by decide)
  have h2 := (claim8_slide_enumeration slideBoard.pieces 9 .white .black .upLeft).2
    9 4 1 ⟨by decide, by decide, by decide⟩
    ⟨PieceData.const_default, by decide, rfl⟩ (by decide) (by decide)
  exact ⟨h1, h2⟩
